import Mathlib

/-!
Verification of the magic-eraser vision/compositing/FX pipeline.

Shallow embedding of the Rust sources `src/vision.rs`, `src/gamma.rs`,
`src/fx.rs`, `src/types.rs`, `src/error.rs`.

Modelling conventions:
* `u32` pixels are `ℕ` (all source values stay below `2^24`; where
  wrap-around matters, `% 2^32` is explicit).
* `f32` values that only ever hold dyadic-rational data (mask alphas,
  pixel-derived linear-light values, rng outputs) are modelled as `ℚ`;
  the transcendental library calls (`exp`, `powf`, `cos`, `sin`, `sqrt`)
  are parameters of the embedding, so every theorem quantifies over them.
* Fallible operations return `Except Error _`; in-place updates return
  the updated buffer.
-/

/-! ### Rational helpers mirroring Rust float primitives -/

/-- Computable floor of a rational (numerator divided by denominator, which
is floor division because the denominator is positive). -/
def ratFloor (q : ℚ) : ℤ := q.num / q.den

theorem ratFloor_eq_floor (q : ℚ) : ratFloor q = ⌊q⌋ := Rat.floor_def.symm

theorem ratFloor_mono {a b : ℚ} (h : a ≤ b) : ratFloor a ≤ ratFloor b := by
  rw [ratFloor_eq_floor, ratFloor_eq_floor]
  exact Int.floor_le_floor h

theorem ratFloor_eq_of_bounds (q : ℚ) (z : ℤ) (h1 : (z : ℚ) ≤ q) (h2 : q < z + 1) :
    ratFloor q = z := by
  rw [ratFloor_eq_floor]
  exact Int.floor_eq_iff.mpr ⟨h1, by exact_mod_cast h2⟩

/-- Rust `f32::round` (round half away from zero), as `ℚ → ℤ`. -/
def rustRound (q : ℚ) : ℤ :=
  if 0 ≤ q then ratFloor (q + 1/2) else -(ratFloor (-q + 1/2))

theorem rustRound_mono_of_nonneg {a b : ℚ} (ha : 0 ≤ a) (h : a ≤ b) :
    rustRound a ≤ rustRound b := by
  unfold rustRound
  rw [if_pos ha, if_pos (le_trans ha h)]
  exact ratFloor_mono (by linarith)

/-- Rust `f32::clamp` (`if x < lo { lo } else if x > hi { hi } else { x }`). -/
def rustClamp (x lo hi : ℚ) : ℚ := if x < lo then lo else if x > hi then hi else x

theorem rustClamp_mono {x y lo hi : ℚ} (hlohi : lo ≤ hi) (h : x ≤ y) :
    rustClamp x lo hi ≤ rustClamp y lo hi := by
  unfold rustClamp
  split_ifs <;> linarith

theorem rustClamp_nonneg {x hi : ℚ} (hhi : 0 ≤ hi) : 0 ≤ rustClamp x 0 hi := by
  unfold rustClamp
  split_ifs <;> linarith

theorem rustClamp_le {x hi : ℚ} (hhi : 0 ≤ hi) : rustClamp x 0 hi ≤ hi := by
  unfold rustClamp
  split_ifs <;> linarith

/-- Rust `i32::clamp`. -/
def intClamp (x lo hi : ℤ) : ℤ := if x < lo then lo else if x > hi then hi else x

/-! ### Packed `0x00RRGGBB` pixels -/

/-- Red channel extraction `(px >> 16) & 0xFF`. -/
def chanR (px : ℕ) : ℕ := (px >>> 16) &&& 255

/-- Green channel extraction `(px >> 8) & 0xFF`. -/
def chanG (px : ℕ) : ℕ := (px >>> 8) &&& 255

/-- Blue channel extraction `px & 0xFF`. -/
def chanB (px : ℕ) : ℕ := px &&& 255

/-- Channel packing `(r << 16) | (g << 8) | b`. -/
def packRGB (r g b : ℕ) : ℕ := (r <<< 16) ||| (g <<< 8) ||| b

theorem chanR_le (px : ℕ) : chanR px ≤ 255 := Nat.and_le_right

theorem chanG_le (px : ℕ) : chanG px ≤ 255 := Nat.and_le_right

theorem chanB_le (px : ℕ) : chanB px ≤ 255 := Nat.and_le_right

theorem packRGB_eq_arith (r g b : ℕ) (hg : g ≤ 255) (hb : b ≤ 255) :
    packRGB r g b = r * 2^16 + g * 2^8 + b := by
  unfold packRGB
  rw [Nat.shiftLeft_eq, Nat.shiftLeft_eq]
  have h1 : g * 2^8 < 2^16 := by omega
  have h2 : b < 2^8 := by omega
  rw [Nat.mul_comm r (2^16), ← Nat.mul_add_lt_is_or h1 r]
  rw [show 2^16 * r + g * 2^8 = 2^8 * (2^8 * r + g) from by ring]
  rw [← Nat.mul_add_lt_is_or h2 (2^8 * r + g)]

theorem and255_eq_mod (x : ℕ) : x &&& 255 = x % 256 := by
  have : (255 : ℕ) = 2^8 - 1 := by norm_num
  rw [this, Nat.and_pow_two_sub_one_eq_mod]

theorem chanR_packRGB (r g b : ℕ) (hr : r ≤ 255) (hg : g ≤ 255) (hb : b ≤ 255) :
    chanR (packRGB r g b) = r := by
  rw [packRGB_eq_arith r g b hg hb]
  unfold chanR
  rw [Nat.shiftRight_eq_div_pow, and255_eq_mod]
  omega

theorem chanG_packRGB (r g b : ℕ) (_hr : r ≤ 255) (hg : g ≤ 255) (hb : b ≤ 255) :
    chanG (packRGB r g b) = g := by
  rw [packRGB_eq_arith r g b hg hb]
  unfold chanG
  rw [Nat.shiftRight_eq_div_pow, and255_eq_mod]
  omega

theorem chanB_packRGB (r g b : ℕ) (_hr : r ≤ 255) (hg : g ≤ 255) (hb : b ≤ 255) :
    chanB (packRGB r g b) = b := by
  rw [packRGB_eq_arith r g b hg hb]
  unfold chanB
  rw [and255_eq_mod]
  omega

/-! ### Data model (`src/types.rs`, `src/error.rs`) -/

/-- Model of `FrameBuffer`: packed `0x00RRGGBB` pixels, row-major. -/
structure FrameBuffer where
  width : ℕ
  height : ℕ
  pixels : List ℕ
deriving DecidableEq

/-- Model of `Mask`: per-pixel alpha values. -/
structure Mask where
  width : ℕ
  height : ℕ
  alpha : List ℚ
deriving DecidableEq

/-- Model of `Stamp`: circular Gaussian weight kernel. -/
structure Stamp where
  radius : ℤ
  weights : List ℚ
deriving DecidableEq

/-- Model of `Error` (`src/error.rs`). -/
inductive Error where
  | WindowInit (msg : String)
  | WindowUpdate (msg : String)
  | CameraInit (msg : String)
  | CameraFrame (msg : String)
deriving DecidableEq

/-! ### `median_background` (`src/vision.rs` lines 12-64) -/

/-- One output pixel of `median_background`: gather each channel across the
frames, sort, take the element at index `len/2`, repack. -/
def medPixel (frames : List FrameBuffer) (idx : ℕ) : ℕ :=
  let mid := frames.length / 2
  let rbuf := frames.map (fun f => chanR (f.pixels.getD idx 0))
  let gbuf := frames.map (fun f => chanG (f.pixels.getD idx 0))
  let bbuf := frames.map (fun f => chanB (f.pixels.getD idx 0))
  let r := (List.insertionSort (· ≤ ·) rbuf).getD mid 0
  let g := (List.insertionSort (· ≤ ·) gbuf).getD mid 0
  let b := (List.insertionSort (· ≤ ·) bbuf).getD mid 0
  packRGB r g b

/-- Model of `median_background`: per-pixel, per-channel median across
frames, where the median is the element at index `len/2` of the sorted
channel samples. -/
def median_background (frames : List FrameBuffer) : Except Error FrameBuffer :=
  if frames = [] then
    .error (.CameraFrame ("median_background: no frames"))
  else
    let w := (frames.headD ⟨0, 0, []⟩).width
    let h := (frames.headD ⟨0, 0, []⟩).height
    if ∃ f ∈ frames, f.width ≠ w ∨ f.height ≠ h then
      .error (.CameraFrame ("median_background: frames must share identical dimensions"))
    else
      .ok ⟨w, h, (List.range (w * h)).map (medPixel frames)⟩

theorem getD_range_map {α : Type} (f : ℕ → α) (n idx : ℕ) (d : α) (h : idx < n) :
    ((List.range n).map f).getD idx d = f idx := by
  rw [List.getD_eq_getElem?_getD]
  rw [List.getElem?_eq_getElem (by simpa using h)]
  simp

theorem sorted_getD_le_255 (l : List ℕ) (hl : ∀ v ∈ l, v ≤ 255) (mid : ℕ) :
    (List.insertionSort (· ≤ ·) l).getD mid 0 ≤ 255 := by
  rw [List.getD_eq_getElem?_getD]
  rcases h : (List.insertionSort (· ≤ ·) l)[mid]? with _ | v
  · simp
  · obtain ⟨hlt, hv⟩ := List.getElem?_eq_some.mp h
    have hmem : v ∈ List.insertionSort (· ≤ ·) l := hv ▸ List.getElem_mem hlt
    have := (List.perm_insertionSort (· ≤ ·) l).mem_iff.mp hmem
    simpa using hl v this

/-- Claim C1: for a non-empty collection of same-dimension frames,
`median_background` returns a frame of those dimensions in which every
pixel's every channel equals the element at index `count/2` of the sorted
per-frame channel samples (lower median for even counts, middle order
statistic for odd counts). -/
theorem median_background_is_per_channel_median
    (frames : List FrameBuffer) (w h : ℕ)
    (hne : frames ≠ [])
    (hdim : ∀ f ∈ frames, f.width = w ∧ f.height = h) :
    ∃ out, median_background frames = .ok out ∧ out.width = w ∧ out.height = h ∧
      out.pixels.length = w * h ∧
      ∀ idx, idx < w * h → ∀ c ∈ [chanR, chanG, chanB],
        (List.insertionSort (· ≤ ·)
            (frames.map (fun f => c (f.pixels.getD idx 0)))).Perm
          (frames.map (fun f => c (f.pixels.getD idx 0))) ∧
        List.Sorted (· ≤ ·)
          (List.insertionSort (· ≤ ·)
            (frames.map (fun f => c (f.pixels.getD idx 0)))) ∧
        c (out.pixels.getD idx 0) =
          (List.insertionSort (· ≤ ·)
            (frames.map (fun f => c (f.pixels.getD idx 0)))).getD
            (frames.length / 2) 0 := by
  have hok : median_background frames =
      .ok ⟨w, h, (List.range (w * h)).map (medPixel frames)⟩ := by
    obtain ⟨f0, rest, rfl⟩ := List.exists_cons_of_ne_nil hne
    have hw0 : f0.width = w := (hdim f0 (List.mem_cons_self f0 rest)).1
    have hh0 : f0.height = h := (hdim f0 (List.mem_cons_self f0 rest)).2
    have hnomis : ¬ ∃ f ∈ f0 :: rest,
        f.width ≠ (List.headD (f0 :: rest) ⟨0, 0, []⟩).width ∨
        f.height ≠ (List.headD (f0 :: rest) ⟨0, 0, []⟩).height := by
      simp only [List.headD_cons]
      rintro ⟨f, hf, hbad⟩
      rcases hbad with hbad | hbad
      · exact hbad ((hdim f hf).1.trans hw0.symm)
      · exact hbad ((hdim f hf).2.trans hh0.symm)
    unfold median_background
    rw [if_neg (by simp), if_neg hnomis]
    simp [hw0, hh0]
  refine ⟨_, hok, rfl, rfl, by simp, ?_⟩
  intro idx hidx c hc
  have hgd : ((List.range (w * h)).map (medPixel frames)).getD idx 0 =
      medPixel frames idx := getD_range_map _ _ _ _ hidx
  have hR : ∀ v ∈ frames.map (fun f => chanR (f.pixels.getD idx 0)), v ≤ 255 := by
    intro v hv
    obtain ⟨f, _, rfl⟩ := List.mem_map.mp hv
    exact chanR_le _
  have hG : ∀ v ∈ frames.map (fun f => chanG (f.pixels.getD idx 0)), v ≤ 255 := by
    intro v hv
    obtain ⟨f, _, rfl⟩ := List.mem_map.mp hv
    exact chanG_le _
  have hB : ∀ v ∈ frames.map (fun f => chanB (f.pixels.getD idx 0)), v ≤ 255 := by
    intro v hv
    obtain ⟨f, _, rfl⟩ := List.mem_map.mp hv
    exact chanB_le _
  have hRb := sorted_getD_le_255 _ hR (frames.length / 2)
  have hGb := sorted_getD_le_255 _ hG (frames.length / 2)
  have hBb := sorted_getD_le_255 _ hB (frames.length / 2)
  fin_cases hc
  · refine ⟨List.perm_insertionSort _ _, List.sorted_insertionSort _ _, ?_⟩
    show chanR (((List.range (w * h)).map (medPixel frames)).getD idx 0) = _
    rw [hgd]
    exact chanR_packRGB _ _ _ hRb hGb hBb
  · refine ⟨List.perm_insertionSort _ _, List.sorted_insertionSort _ _, ?_⟩
    show chanG (((List.range (w * h)).map (medPixel frames)).getD idx 0) = _
    rw [hgd]
    exact chanG_packRGB _ _ _ hRb hGb hBb
  · refine ⟨List.perm_insertionSort _ _, List.sorted_insertionSort _ _, ?_⟩
    show chanB (((List.range (w * h)).map (medPixel frames)).getD idx 0) = _
    rw [hgd]
    exact chanB_packRGB _ _ _ hRb hGb hBb

/-! ### `GammaLut` (`src/gamma.rs`) -/

/-- Model of `GammaLut`: the two lookup tables, as functions on indices
(`srgb_to_linear` indexed by bytes 0..=255, `linear_to_srgb` indexed by
quantized linear values 0..=4095). -/
structure GammaLut where
  srgb_to_linear : ℕ → ℚ
  linear_to_srgb : ℕ → ℕ

/-- Model of `GammaLut::new`, parametric in the two `powf` calls
(`x.powf(2.4)` and `x.powf(1.0/2.4)`), which are transcendental library
functions the source does not define. -/
def GammaLut.new (pow_enc pow_dec : ℚ → ℚ) : GammaLut :=
  { srgb_to_linear := fun v =>
      let c : ℚ := (v : ℚ) / 255
      if c ≤ 0.04045 then c / 12.92 else pow_enc ((c + 0.055) / 1.055)
    linear_to_srgb := fun i =>
      let l : ℚ := (i : ℚ) / 4095
      let s : ℚ := if l ≤ 0.0031308 then 12.92 * l else 1.055 * pow_dec l - 0.055
      (intClamp (rustRound (s * 255)) 0 255).toNat }

/-- Model of `GammaLut::srgb_u8_to_linear` (table lookup). -/
def GammaLut.srgb_u8_to_linear (lut : GammaLut) (v : ℕ) : ℚ :=
  lut.srgb_to_linear v

/-- Quantization `(l.clamp(0.0, 1.0) * 4095.0).round() as usize`. -/
def toLutIdx (l : ℚ) : ℕ := (rustRound (rustClamp l 0 1 * 4095)).toNat

/-- Model of `GammaLut::linear_to_srgb_u8` (quantize then table lookup). -/
def GammaLut.linear_to_srgb_u8 (lut : GammaLut) (l : ℚ) : ℕ :=
  lut.linear_to_srgb (toLutIdx l)

/-! ### `blend_linear_in_place` (`src/vision.rs` lines 239-291) -/

/-- One pixel of the compositor: skip for `a ≤ 0`, copy the sink for
`a ≥ 1`, otherwise blend in linear light through the LUT. -/
def blendPixel (lut : GammaLut) (pf ps : ℕ) (a : ℚ) : ℕ :=
  if a ≤ 0 then pf
  else if a ≥ 1 then ps
  else
    let rf := chanR pf
    let gf := chanG pf
    let bf := chanB pf
    let rs := chanR ps
    let gs := chanG ps
    let bs := chanB ps
    let rf_lin := lut.srgb_u8_to_linear rf
    let gf_lin := lut.srgb_u8_to_linear gf
    let bf_lin := lut.srgb_u8_to_linear bf
    let rs_lin := lut.srgb_u8_to_linear rs
    let gs_lin := lut.srgb_u8_to_linear gs
    let bs_lin := lut.srgb_u8_to_linear bs
    let inv := 1 - a
    let r_lin := a * rs_lin + inv * rf_lin
    let g_lin := a * gs_lin + inv * gf_lin
    let b_lin := a * bs_lin + inv * bf_lin
    packRGB (lut.linear_to_srgb_u8 r_lin) (lut.linear_to_srgb_u8 g_lin)
      (lut.linear_to_srgb_u8 b_lin)

/-- Model of `blend_linear_in_place`: dimension checks, then the per-pixel
mask-driven blend over every index. -/
def blend_linear_in_place (fg_live sink : FrameBuffer) (mask : Mask)
    (lut : GammaLut) : Except Error FrameBuffer :=
  if fg_live.width ≠ sink.width ∨ fg_live.height ≠ sink.height then
    .error (.CameraFrame ("blend: dimension mismatch"))
  else if mask.width ≠ fg_live.width ∨ mask.height ≠ fg_live.height then
    .error (.CameraFrame ("blend: mask dimension mismatch"))
  else
    .ok { fg_live with pixels :=
      (List.range (fg_live.width * fg_live.height)).map (fun i =>
        blendPixel lut (fg_live.pixels.getD i 0) (sink.pixels.getD i 0)
          (mask.alpha.getD i 0)) }

/-- The 2×2 all-black frame of the end-to-end test. -/
def black2x2 : FrameBuffer := ⟨2, 2, [0, 0, 0, 0]⟩

/-- The 2×2 all-white frame of the end-to-end test. -/
def white2x2 : FrameBuffer := ⟨2, 2, [0xFFFFFF, 0xFFFFFF, 0xFFFFFF, 0xFFFFFF]⟩

/-- A 2×2 constant mask. -/
def maskAll (a : ℚ) : Mask := ⟨2, 2, [a, a, a, a]⟩

/-- Claim C2: with matching dimensions, `blend_linear_in_place` leaves a
pixel bit-for-bit unchanged where the mask is `≤ 0` and copies the sink
pixel bit-for-bit where the mask is `≥ 1`; in particular a 2×2 all-black
foreground against an all-white sink becomes all-white under an all-1.0
mask and stays all-black under an all-0.0 mask, for every `GammaLut`. -/
theorem blend_mask_endpoints
    (fg sink : FrameBuffer) (mask : Mask) (lut : GammaLut)
    (hw : sink.width = fg.width) (hh : sink.height = fg.height)
    (hmw : mask.width = fg.width) (hmh : mask.height = fg.height) :
    (∃ out, blend_linear_in_place fg sink mask lut = .ok out ∧
      out.width = fg.width ∧ out.height = fg.height ∧
      ∀ i, i < fg.width * fg.height →
        (mask.alpha.getD i 0 ≤ 0 → out.pixels.getD i 0 = fg.pixels.getD i 0) ∧
        (1 ≤ mask.alpha.getD i 0 → out.pixels.getD i 0 = sink.pixels.getD i 0)) ∧
    blend_linear_in_place black2x2 white2x2 (maskAll 1) lut = .ok white2x2 ∧
    blend_linear_in_place black2x2 white2x2 (maskAll 0) lut = .ok black2x2 := by
  refine ⟨?_, ?_, ?_⟩
  · have h1 : ¬ (fg.width ≠ sink.width ∨ fg.height ≠ sink.height) := by
      rw [hw, hh]; simp
    have h2 : ¬ (mask.width ≠ fg.width ∨ mask.height ≠ fg.height) := by
      rw [hmw, hmh]; simp
    refine ⟨⟨fg.width, fg.height, (List.range (fg.width * fg.height)).map (fun i =>
        blendPixel lut (fg.pixels.getD i 0) (sink.pixels.getD i 0)
          (mask.alpha.getD i 0))⟩,
      by rw [blend_linear_in_place, if_neg h1, if_neg h2], rfl, rfl, ?_⟩
    intro i hi
    have hgd : ((List.range (fg.width * fg.height)).map (fun i =>
        blendPixel lut (fg.pixels.getD i 0) (sink.pixels.getD i 0)
          (mask.alpha.getD i 0))).getD i 0 =
        blendPixel lut (fg.pixels.getD i 0) (sink.pixels.getD i 0)
          (mask.alpha.getD i 0) := getD_range_map _ _ _ _ hi
    constructor
    · intro hle
      rw [show (FrameBuffer.mk fg.width fg.height ((List.range (fg.width * fg.height)).map (fun i =>
        blendPixel lut (fg.pixels.getD i 0) (sink.pixels.getD i 0)
          (mask.alpha.getD i 0)))).pixels = (List.range (fg.width * fg.height)).map (fun i =>
        blendPixel lut (fg.pixels.getD i 0) (sink.pixels.getD i 0)
          (mask.alpha.getD i 0)) from rfl]
      rw [hgd, blendPixel, if_pos hle]
    · intro hge
      rw [show (FrameBuffer.mk fg.width fg.height ((List.range (fg.width * fg.height)).map (fun i =>
        blendPixel lut (fg.pixels.getD i 0) (sink.pixels.getD i 0)
          (mask.alpha.getD i 0)))).pixels = (List.range (fg.width * fg.height)).map (fun i =>
        blendPixel lut (fg.pixels.getD i 0) (sink.pixels.getD i 0)
          (mask.alpha.getD i 0)) from rfl]
      rw [hgd, blendPixel, if_neg (by linarith), if_pos hge]
  · show blend_linear_in_place black2x2 white2x2 (maskAll 1) lut = .ok white2x2
    rw [blend_linear_in_place]
    norm_num [black2x2, white2x2, maskAll, blendPixel, List.range_succ]
  · show blend_linear_in_place black2x2 white2x2 (maskAll 0) lut = .ok black2x2
    rw [blend_linear_in_place]
    norm_num [black2x2, white2x2, maskAll, blendPixel, List.range_succ]

/-- Closed witness for C2 at concrete buffers (all hypotheses discharged). -/
theorem blend_mask_endpoints_witness :
    blend_linear_in_place black2x2 white2x2 (maskAll 1)
        (GammaLut.new (fun _ => 0) (fun _ => 0)) = .ok white2x2 :=
  (blend_mask_endpoints black2x2 white2x2 (maskAll 1)
    (GammaLut.new (fun _ => 0) (fun _ => 0)) rfl rfl rfl rfl).2.1

/-! ### Claim C3: strict betweenness of blended channels -/

theorem toLutIdx_eval (l : ℚ) (z : ℤ) (h0 : ¬ l < 0) (h1 : ¬ l > 1)
    (hz0 : (z : ℚ) ≤ l * 4095 + 1/2) (hz1 : l * 4095 + 1/2 < z + 1) :
    toLutIdx l = z.toNat := by
  unfold toLutIdx rustRound rustClamp
  rw [if_neg h0, if_neg h1,
    if_pos (mul_nonneg (not_lt.mp h0) (by norm_num) : (0:ℚ) ≤ l * 4095)]
  rw [ratFloor_eq_of_bounds _ z hz0 hz1]

/-- Claim C3 as stated is false: with mask value 1/2 (strictly between 0
and 1) and blue channel bytes 0 (foreground) and 1 (sink), which differ,
the blended output byte is 1 — and no byte at all lies strictly between 0
and 1.  Only the exactly-modelled linear branches of the LUT construction
are exercised by bytes 0 and 1, so the placeholder `powf` arguments of
`GammaLut.new` are never consulted. -/
theorem blend_strict_between_counterexample :
    ((0:ℚ) < 1/2 ∧ (1:ℚ)/2 < 1) ∧
    chanB ((⟨1, 1, [0]⟩ : FrameBuffer).pixels.getD 0 0) ≠
      chanB ((⟨1, 1, [1]⟩ : FrameBuffer).pixels.getD 0 0) ∧
    blend_linear_in_place ⟨1, 1, [0]⟩ ⟨1, 1, [1]⟩ ⟨1, 1, [1/2]⟩
        (GammaLut.new (fun _ => 0) (fun _ => 0)) = .ok ⟨1, 1, [1]⟩ ∧
    ¬ (min (chanB 0) (chanB 1) < chanB ((⟨1, 1, [1]⟩ : FrameBuffer).pixels.getD 0 0) ∧
       chanB ((⟨1, 1, [1]⟩ : FrameBuffer).pixels.getD 0 0) < max (chanB 0) (chanB 1)) := by
  refine ⟨by norm_num, by decide, ?_, by decide⟩
  have hr0 : rustRound (0 : ℚ) = 0 := by
    rw [rustRound, if_pos le_rfl]
    exact ratFloor_eq_of_bounds _ 0 (by norm_num) (by norm_num)
  have hr08 : rustRound (5491/6825 : ℚ) = 1 := by
    rw [rustRound, if_pos (by norm_num)]
    exact ratFloor_eq_of_bounds _ 1 (by norm_num) (by norm_num)
  have hidx0 : toLutIdx 0 = 0 := by
    have := toLutIdx_eval 0 0 (by norm_num) (by norm_num) (by norm_num) (by norm_num)
    simpa using this
  have hidx1 : toLutIdx (5/32946 : ℚ) = 1 := by
    have := toLutIdx_eval (5/32946) 1 (by norm_num) (by norm_num) (by norm_num) (by norm_num)
    simpa using this
  have hs2l0 : (GammaLut.new (fun _ => 0) (fun _ => 0)).srgb_to_linear 0 = 0 := by
    norm_num [GammaLut.new]
  have hs2l1 : (GammaLut.new (fun _ => 0) (fun _ => 0)).srgb_to_linear 1 = 5/16473 := by
    norm_num [GammaLut.new]
  have htab0 : (GammaLut.new (fun _ => 0) (fun _ => 0)).linear_to_srgb 0 = 0 := by
    norm_num [GammaLut.new, intClamp, hr0]
  have htab1 : (GammaLut.new (fun _ => 0) (fun _ => 0)).linear_to_srgb 1 = 1 := by
    norm_num [GammaLut.new, intClamp, hr08]
  have hlu0 : (GammaLut.new (fun _ => 0) (fun _ => 0)).linear_to_srgb_u8 0 = 0 := by
    rw [GammaLut.linear_to_srgb_u8, hidx0, htab0]
  have hlu1 : (GammaLut.new (fun _ => 0) (fun _ => 0)).linear_to_srgb_u8 (5/32946) = 1 := by
    rw [GammaLut.linear_to_srgb_u8, hidx1, htab1]
  have hchR0 : chanR 0 = 0 := by decide
  have hchG0 : chanG 0 = 0 := by decide
  have hchB0 : chanB 0 = 0 := by decide
  have hchR1 : chanR 1 = 0 := by decide
  have hchG1 : chanG 1 = 0 := by decide
  have hchB1 : chanB 1 = 1 := by decide
  have hpack : packRGB 0 0 1 = 1 := by decide
  have hbp : blendPixel (GammaLut.new (fun _ => 0) (fun _ => 0)) 0 1 (2⁻¹ : ℚ) = 1 := by
    rw [blendPixel, if_neg (by norm_num), if_neg (by norm_num)]
    norm_num [hchR0, hchG0, hchB0, hchR1, hchG1, hchB1, GammaLut.srgb_u8_to_linear,
      hs2l0, hs2l1, hlu0, hlu1, hpack]
  simp [blend_linear_in_place, hbp, List.range_succ]

theorem toLutIdx_mono {a b : ℚ} (h : a ≤ b) : toLutIdx a ≤ toLutIdx b := by
  unfold toLutIdx
  apply Int.toNat_le_toNat
  apply rustRound_mono_of_nonneg
  · exact mul_nonneg (rustClamp_nonneg (by norm_num)) (by norm_num)
  · exact mul_le_mul_of_nonneg_right (rustClamp_mono (by norm_num) h) (by norm_num)

theorem toLutIdx_le_4095 (l : ℚ) : toLutIdx l ≤ 4095 := by
  unfold toLutIdx
  have h1 : rustClamp l 0 1 * 4095 ≤ 4095 := by
    have := @rustClamp_le l 1 (by norm_num)
    nlinarith
  have h2 : (0:ℚ) ≤ rustClamp l 0 1 * 4095 :=
    mul_nonneg (rustClamp_nonneg (by norm_num)) (by norm_num)
  have h3 : rustRound (rustClamp l 0 1 * 4095) ≤ rustRound (4095 : ℚ) :=
    rustRound_mono_of_nonneg h2 h1
  have h4 : rustRound (4095 : ℚ) = 4095 := by
    rw [rustRound, if_pos (by norm_num)]
    exact ratFloor_eq_of_bounds _ 4095 (by norm_num) (by norm_num)
  omega

theorem lut_mix_between_ordered
    (lut : GammaLut)
    (hl2s : ∀ j, j ≤ 4095 → ∀ i, i ≤ j → lut.linear_to_srgb i ≤ lut.linear_to_srgb j)
    (hrt : ∀ v, v ≤ 255 → lut.linear_to_srgb_u8 (lut.srgb_to_linear v) = v)
    (u v : ℕ) (huv : u ≤ v) (hv : v ≤ 255)
    (hFS : lut.srgb_to_linear u ≤ lut.srgb_to_linear v)
    (t s : ℚ) (ht : 0 ≤ t) (hs : 0 ≤ s) (hts : t + s = 1) :
    u ≤ lut.linear_to_srgb_u8 (t * lut.srgb_to_linear v + s * lut.srgb_to_linear u) ∧
    lut.linear_to_srgb_u8 (t * lut.srgb_to_linear v + s * lut.srgb_to_linear u) ≤ v := by
  have hs' : s = 1 - t := by linarith
  subst hs'
  set F := lut.srgb_to_linear u with hF
  set S := lut.srgb_to_linear v with hS
  have hmix1 : F ≤ t * S + (1 - t) * F := by
    have := mul_nonneg ht (sub_nonneg.mpr hFS)
    nlinarith
  have hmix2 : t * S + (1 - t) * F ≤ S := by
    have := mul_nonneg hs (sub_nonneg.mpr hFS)
    nlinarith
  have hiu : toLutIdx F ≤ toLutIdx (t * S + (1 - t) * F) := toLutIdx_mono hmix1
  have hiv : toLutIdx (t * S + (1 - t) * F) ≤ toLutIdx S := toLutIdx_mono hmix2
  have hub := hl2s (toLutIdx S) (toLutIdx_le_4095 S)
    (toLutIdx (t * S + (1 - t) * F)) hiv
  have hlb := hl2s (toLutIdx (t * S + (1 - t) * F))
    (toLutIdx_le_4095 (t * S + (1 - t) * F)) (toLutIdx F) hiu
  have hru : lut.linear_to_srgb (toLutIdx F) = u := hrt u (le_trans huv hv)
  have hrv : lut.linear_to_srgb (toLutIdx S) = v := hrt v hv
  unfold GammaLut.linear_to_srgb_u8
  omega

theorem blendPixel_weakly_between
    (lut : GammaLut)
    (hs2l : ∀ v, v ≤ 255 → ∀ u, u ≤ v → lut.srgb_to_linear u ≤ lut.srgb_to_linear v)
    (hl2s : ∀ j, j ≤ 4095 → ∀ i, i ≤ j → lut.linear_to_srgb i ≤ lut.linear_to_srgb j)
    (hrange : ∀ i, i ≤ 4095 → lut.linear_to_srgb i ≤ 255)
    (hrt : ∀ v, v ≤ 255 → lut.linear_to_srgb_u8 (lut.srgb_to_linear v) = v)
    (pf ps : ℕ) (a : ℚ) (ha0 : 0 < a) (ha1 : a < 1) :
    ∀ c ∈ [chanR, chanG, chanB],
      min (c pf) (c ps) ≤ c (blendPixel lut pf ps a) ∧
      c (blendPixel lut pf ps a) ≤ max (c pf) (c ps) := by
  intro c hc
  have hbp : blendPixel lut pf ps a =
      packRGB (lut.linear_to_srgb_u8
          (a * lut.srgb_u8_to_linear (chanR ps) + (1 - a) * lut.srgb_u8_to_linear (chanR pf)))
        (lut.linear_to_srgb_u8
          (a * lut.srgb_u8_to_linear (chanG ps) + (1 - a) * lut.srgb_u8_to_linear (chanG pf)))
        (lut.linear_to_srgb_u8
          (a * lut.srgb_u8_to_linear (chanB ps) + (1 - a) * lut.srgb_u8_to_linear (chanB pf))) := by
    rw [blendPixel, if_neg (by linarith), if_neg (by linarith)]
  have hX : ∀ l : ℚ, lut.linear_to_srgb_u8 l ≤ 255 := fun l =>
    hrange (toLutIdx l) (toLutIdx_le_4095 l)
  have key : ∀ cc : ℕ → ℕ, (∀ px, cc px ≤ 255) →
      min (cc pf) (cc ps) ≤ lut.linear_to_srgb_u8
        (a * lut.srgb_u8_to_linear (cc ps) + (1 - a) * lut.srgb_u8_to_linear (cc pf)) ∧
      lut.linear_to_srgb_u8
        (a * lut.srgb_u8_to_linear (cc ps) + (1 - a) * lut.srgb_u8_to_linear (cc pf)) ≤
        max (cc pf) (cc ps) := by
    intro cc hcc
    rcases le_total (cc pf) (cc ps) with hord | hord
    · have := lut_mix_between_ordered lut hl2s hrt (cc pf) (cc ps) hord (hcc ps)
        (hs2l (cc ps) (hcc ps) (cc pf) hord) a (1 - a) (by linarith) (by linarith)
        (by ring)
      rw [min_eq_left hord, max_eq_right hord]
      exact this
    · have := lut_mix_between_ordered lut hl2s hrt (cc ps) (cc pf) hord (hcc pf)
        (hs2l (cc pf) (hcc pf) (cc ps) hord) (1 - a) a (by linarith) (by linarith)
        (by ring)
      rw [min_eq_right hord, max_eq_left hord]
      rw [show a * lut.srgb_u8_to_linear (cc ps) + (1 - a) * lut.srgb_u8_to_linear (cc pf) =
        (1 - a) * lut.srgb_u8_to_linear (cc pf) + a * lut.srgb_u8_to_linear (cc ps) from by ring]
      exact this
  fin_cases hc
  · rw [hbp, chanR_packRGB _ _ _ (hX _) (hX _) (hX _)]
    exact key chanR chanR_le
  · rw [hbp, chanG_packRGB _ _ _ (hX _) (hX _) (hX _)]
    exact key chanG chanG_le
  · rw [hbp, chanB_packRGB _ _ _ (hX _) (hX _) (hX _)]
    exact key chanB chanB_le

/-- Claim C3 amended: for a pixel whose mask value is strictly between 0
and 1, the output channel byte of `blend_linear_in_place` lies weakly
between the foreground byte and the sink byte (closed interval), for any
`GammaLut` whose tables are monotone, byte-valued, and whose
byte→linear→byte round trip is exact.  Strict betweenness, as the claim
states it, is impossible whenever the two bytes are adjacent. -/
theorem blend_intermediate_weakly_between
    (lut : GammaLut)
    (hs2l : ∀ v, v ≤ 255 → ∀ u, u ≤ v → lut.srgb_to_linear u ≤ lut.srgb_to_linear v)
    (hl2s : ∀ j, j ≤ 4095 → ∀ i, i ≤ j → lut.linear_to_srgb i ≤ lut.linear_to_srgb j)
    (hrange : ∀ i, i ≤ 4095 → lut.linear_to_srgb i ≤ 255)
    (hrt : ∀ v, v ≤ 255 → lut.linear_to_srgb_u8 (lut.srgb_to_linear v) = v)
    (fg sink : FrameBuffer) (mask : Mask)
    (hw : sink.width = fg.width) (hh : sink.height = fg.height)
    (hmw : mask.width = fg.width) (hmh : mask.height = fg.height) :
    ∃ out, blend_linear_in_place fg sink mask lut = .ok out ∧
      ∀ i, i < fg.width * fg.height →
        0 < mask.alpha.getD i 0 → mask.alpha.getD i 0 < 1 →
        ∀ c ∈ [chanR, chanG, chanB],
          c (fg.pixels.getD i 0) ≠ c (sink.pixels.getD i 0) →
          min (c (fg.pixels.getD i 0)) (c (sink.pixels.getD i 0)) ≤
              c (out.pixels.getD i 0) ∧
            c (out.pixels.getD i 0) ≤
              max (c (fg.pixels.getD i 0)) (c (sink.pixels.getD i 0)) := by
  have h1 : ¬ (fg.width ≠ sink.width ∨ fg.height ≠ sink.height) := by
    rw [hw, hh]; simp
  have h2 : ¬ (mask.width ≠ fg.width ∨ mask.height ≠ fg.height) := by
    rw [hmw, hmh]; simp
  refine ⟨⟨fg.width, fg.height, (List.range (fg.width * fg.height)).map (fun i =>
      blendPixel lut (fg.pixels.getD i 0) (sink.pixels.getD i 0)
        (mask.alpha.getD i 0))⟩,
    by rw [blend_linear_in_place, if_neg h1, if_neg h2], ?_⟩
  intro i hi ha0 ha1 c hc _
  have hgd : ((List.range (fg.width * fg.height)).map (fun i =>
      blendPixel lut (fg.pixels.getD i 0) (sink.pixels.getD i 0)
        (mask.alpha.getD i 0))).getD i 0 =
      blendPixel lut (fg.pixels.getD i 0) (sink.pixels.getD i 0)
        (mask.alpha.getD i 0) := getD_range_map _ _ _ _ hi
  have hmain := blendPixel_weakly_between lut hs2l hl2s hrange hrt
    (fg.pixels.getD i 0) (sink.pixels.getD i 0) (mask.alpha.getD i 0) ha0 ha1 c hc
  constructor
  · calc min (c (fg.pixels.getD i 0)) (c (sink.pixels.getD i 0)) ≤
        c (blendPixel lut (fg.pixels.getD i 0) (sink.pixels.getD i 0)
          (mask.alpha.getD i 0)) := hmain.1
      _ = c ((FrameBuffer.mk fg.width fg.height ((List.range (fg.width * fg.height)).map (fun i =>
          blendPixel lut (fg.pixels.getD i 0) (sink.pixels.getD i 0)
            (mask.alpha.getD i 0)))).pixels.getD i 0) := by rw [show (FrameBuffer.mk fg.width fg.height ((List.range (fg.width * fg.height)).map (fun i =>
          blendPixel lut (fg.pixels.getD i 0) (sink.pixels.getD i 0)
            (mask.alpha.getD i 0)))).pixels = (List.range (fg.width * fg.height)).map (fun i =>
          blendPixel lut (fg.pixels.getD i 0) (sink.pixels.getD i 0)
            (mask.alpha.getD i 0)) from rfl, hgd]
  · calc c ((FrameBuffer.mk fg.width fg.height ((List.range (fg.width * fg.height)).map (fun i =>
          blendPixel lut (fg.pixels.getD i 0) (sink.pixels.getD i 0)
            (mask.alpha.getD i 0)))).pixels.getD i 0) =
        c (blendPixel lut (fg.pixels.getD i 0) (sink.pixels.getD i 0)
          (mask.alpha.getD i 0)) := by rw [show (FrameBuffer.mk fg.width fg.height ((List.range (fg.width * fg.height)).map (fun i =>
          blendPixel lut (fg.pixels.getD i 0) (sink.pixels.getD i 0)
            (mask.alpha.getD i 0)))).pixels = (List.range (fg.width * fg.height)).map (fun i =>
          blendPixel lut (fg.pixels.getD i 0) (sink.pixels.getD i 0)
            (mask.alpha.getD i 0)) from rfl, hgd]
      _ ≤ max (c (fg.pixels.getD i 0)) (c (sink.pixels.getD i 0)) := hmain.2

/-- A concrete monotone, round-trip-exact lut used to witness the amended
claim C3 (identity-flavoured tables of the right shapes). -/
def lutGoodQ : GammaLut :=
  ⟨fun v => (v : ℚ) / 255, fun i => (i * 255 + 2047) / 4095⟩

theorem lutGoodQ_idx (v : ℕ) (hv : v ≤ 255) :
    toLutIdx ((v : ℚ) / 255) = (546 * v + 17) / 34 := by
  have hb0 : ¬ ((v:ℚ)/255 < 0) := not_lt.mpr (by positivity)
  have hb1 : ¬ ((v:ℚ)/255 > 1) := by
    rw [not_lt, div_le_one (by norm_num : (0:ℚ) < 255)]
    exact_mod_cast hv
  rw [toLutIdx, rustClamp, if_neg hb0, if_neg hb1, rustRound,
    if_pos (by positivity : (0:ℚ) ≤ (v:ℚ)/255 * 4095)]
  have heq : (v:ℚ)/255 * 4095 + 1/2 = ((546 * v + 17 : ℕ) : ℚ) / ((34:ℕ) : ℚ) := by
    push_cast; ring
  rw [heq, ratFloor_eq_floor, Rat.floor_natCast_div_natCast]
  omega

theorem lutGoodQ_rt (v : ℕ) (hv : v ≤ 255) :
    lutGoodQ.linear_to_srgb_u8 (lutGoodQ.srgb_to_linear v) = v := by
  show lutGoodQ.linear_to_srgb (toLutIdx ((v : ℚ) / 255)) = v
  rw [lutGoodQ_idx v hv]
  show ((546 * v + 17) / 34 * 255 + 2047) / 4095 = v
  omega

/-- Closed witness for the amended claim C3 at concrete buffers. -/
theorem blend_intermediate_weakly_between_witness :
    ∃ out, blend_linear_in_place ⟨1, 1, [10]⟩ ⟨1, 1, [200]⟩ ⟨1, 1, [2⁻¹]⟩
        lutGoodQ = .ok out ∧
      ∀ i, i < (⟨1, 1, [10]⟩ : FrameBuffer).width * (⟨1, 1, [10]⟩ : FrameBuffer).height →
        0 < (⟨1, 1, [2⁻¹]⟩ : Mask).alpha.getD i 0 →
        (⟨1, 1, [2⁻¹]⟩ : Mask).alpha.getD i 0 < 1 →
        ∀ c ∈ [chanR, chanG, chanB],
          c ((⟨1, 1, [10]⟩ : FrameBuffer).pixels.getD i 0) ≠
            c ((⟨1, 1, [200]⟩ : FrameBuffer).pixels.getD i 0) →
          min (c ((⟨1, 1, [10]⟩ : FrameBuffer).pixels.getD i 0))
              (c ((⟨1, 1, [200]⟩ : FrameBuffer).pixels.getD i 0)) ≤
              c (out.pixels.getD i 0) ∧
            c (out.pixels.getD i 0) ≤
              max (c ((⟨1, 1, [10]⟩ : FrameBuffer).pixels.getD i 0))
                (c ((⟨1, 1, [200]⟩ : FrameBuffer).pixels.getD i 0)) :=
  blend_intermediate_weakly_between lutGoodQ
    (by
      intro v _ u huv
      show (u : ℚ) / 255 ≤ (v : ℚ) / 255
      gcongr)
    (by
      intro j _ i hij
      show (i * 255 + 2047) / 4095 ≤ (j * 255 + 2047) / 4095
      exact Nat.div_le_div_right (by omega))
    (by
      intro i hi
      show (i * 255 + 2047) / 4095 ≤ 255
      omega)
    lutGoodQ_rt
    ⟨1, 1, [10]⟩ ⟨1, 1, [200]⟩ ⟨1, 1, [2⁻¹]⟩ rfl rfl rfl rfl

/-! ### `box_blur_rgb` (`src/vision.rs` lines 135-237) -/

/-- Edge clamp of a window coordinate into `[0, n-1]`, as the source's
`(t).max(0)` / `(t).min(n-1)` index arithmetic produces. -/
def clampI (t : ℤ) (n : ℕ) : ℤ := max 0 (min t ((n : ℤ) - 1))

/-- Direct edge-clamped sum of the `2r+1` window samples centred at `x`
along a line of length `n` read through `g`. -/
def winSum (g : ℕ → ℕ) (n r x : ℕ) : ℕ :=
  ∑ j ∈ Finset.range (2 * r + 1), g (clampI ((x : ℤ) + j - r) n).toNat

/-- The sliding-window loop of one 1-D pass of `box_blur_rgb` (the inner
`for x in 0..w` / `for y in 0..h` loops): emit the packed per-channel
averages at the current position, then add the entering clamped sample and
subtract the leaving clamped sample.  Structured by remaining count
`rem`. -/
def slideGo (f : ℕ → ℕ) (n r : ℕ) : ℕ → ℕ → ℕ × ℕ × ℕ → List ℕ
  | _, 0, _ => []
  | x, rem + 1, (sr, sg, sb) =>
    let win := 2 * r + 1
    let leftx := x - r
    let rightx := min (x + r + 1) (n - 1)
    let psub := f leftx
    let padd := f rightx
    packRGB (sr / win) (sg / win) (sb / win) ::
      slideGo f n r (x + 1) rem
        (sr + chanR padd - chanR psub, sg + chanG padd - chanG psub,
         sb + chanB padd - chanB psub)

/-- The priming of the window sums of a 1-D pass: the edge sample weighted
`r+1` times plus the clamped samples at offsets `1..=r`. -/
def primeSums (f : ℕ → ℕ) (n r : ℕ) : ℕ × ℕ × ℕ :=
  (chanR (f 0) * (r + 1) +
     ((List.range r).map (fun i => chanR (f (min (i + 1) (n - 1))))).sum,
   chanG (f 0) * (r + 1) +
     ((List.range r).map (fun i => chanG (f (min (i + 1) (n - 1))))).sum,
   chanB (f 0) * (r + 1) +
     ((List.range r).map (fun i => chanB (f (min (i + 1) (n - 1))))).sum)

/-- One full 1-D sliding pass over a line of length `n`. -/
def slideLine (f : ℕ → ℕ) (n r : ℕ) : List ℕ :=
  slideGo f n r 0 n (primeSums f n r)

/-- Model of `box_blur_rgb`: dimension checks, horizontal sliding pass into
the scratch buffer, vertical sliding pass over the scratch into the
destination. -/
def box_blur_rgb (src tmp dst : FrameBuffer) (radius : ℕ) :
    Except Error (FrameBuffer × FrameBuffer) :=
  if src.width ≠ dst.width ∨ src.height ≠ dst.height then
    .error (.CameraFrame ("box_blur: size mismatch src↔dst"))
  else if tmp.width ≠ src.width ∨ tmp.height ≠ src.height then
    .error (.CameraFrame ("box_blur: size mismatch tmp"))
  else
    let w := src.width
    let h := src.height
    let tmpPx := (List.range h).flatMap (fun y =>
      slideLine (fun i => src.pixels.getD (y * w + i) 0) w radius)
    let dstPx := (List.range h).flatMap (fun y =>
      (List.range w).map (fun x =>
        (slideLine (fun j => tmpPx.getD (j * w + x) 0) h radius).getD y 0))
    .ok (⟨tmp.width, tmp.height, tmpPx⟩, ⟨dst.width, dst.height, dstPx⟩)

/-- Direct (spec-side) horizontal pass value: edge-clamped window average
of source channel samples on row `y`. -/
def hPassSpec (src : FrameBuffer) (c : ℕ → ℕ) (r x y : ℕ) : ℕ :=
  winSum (fun i => c (src.pixels.getD (y * src.width + i) 0)) src.width r x /
    (2 * r + 1)

/-- Direct (spec-side) separable blur: edge-clamped vertical window average
of the horizontal pass values. -/
def boxBlurSepSpec (src : FrameBuffer) (c : ℕ → ℕ) (r x y : ℕ) : ℕ :=
  (∑ j ∈ Finset.range (2 * r + 1),
      hPassSpec src c r x (clampI ((y : ℤ) + j - r) src.height).toNat) /
    (2 * r + 1)

/-- The claim's direct definition: the average of all `(2r+1)×(2r+1)`
edge-clamped source samples of the box centred at the pixel. -/
def boxBlur2DSpec (src : FrameBuffer) (c : ℕ → ℕ) (r x y : ℕ) : ℕ :=
  (∑ j ∈ Finset.range (2 * r + 1), ∑ i ∈ Finset.range (2 * r + 1),
      c (src.pixels.getD
        ((clampI ((y : ℤ) + j - r) src.height).toNat * src.width +
          (clampI ((x : ℤ) + i - r) src.width).toNat) 0)) /
    ((2 * r + 1) * (2 * r + 1))

theorem clampI_left (x r n : ℕ) (h : x < n) :
    (clampI ((x : ℤ) - r) n).toNat = x - r := by
  unfold clampI
  omega

theorem clampI_right (x r n : ℕ) (h : 0 < n) :
    (clampI ((x : ℤ) + r + 1) n).toNat = min (x + r + 1) (n - 1) := by
  unfold clampI
  rcases Nat.le_total (x + r + 1) (n - 1) with hc | hc
  · rw [Nat.min_eq_left hc]; omega
  · rw [Nat.min_eq_right hc]; omega

theorem clampI_lt (t : ℤ) (n : ℕ) (h : 0 < n) : (clampI t n).toNat < n := by
  unfold clampI
  omega

theorem slideGo_length (f : ℕ → ℕ) (n r : ℕ) :
    ∀ rem x s, (slideGo f n r x rem s).length = rem := by
  intro rem
  induction rem with
  | zero => intro x s; rfl
  | succ m ih =>
    intro x s
    obtain ⟨sr, sg, sb⟩ := s
    simp [slideGo, ih]

theorem slideLine_length (f : ℕ → ℕ) (n r : ℕ) : (slideLine f n r).length = n := by
  unfold slideLine
  rw [slideGo_length]

theorem winSum_succ (g : ℕ → ℕ) (n r x : ℕ) :
    winSum g n r (x + 1) + g (clampI ((x : ℤ) - r) n).toNat =
    winSum g n r x + g (clampI ((x : ℤ) + r + 1) n).toNat := by
  unfold winSum
  have key : ∀ j : ℕ, (((x + 1 : ℕ) : ℤ) + (j : ℤ) - (r : ℤ)) =
      ((x : ℤ) + ((j + 1 : ℕ) : ℤ) - (r : ℤ)) := by
    intro j; push_cast; ring
  rw [Finset.sum_congr rfl (fun j _ => by rw [key j])]
  have hL := Finset.sum_range_succ'
    (fun j => g (clampI ((x : ℤ) + (j : ℤ) - (r : ℤ)) n).toNat) (2 * r + 1)
  have hR := Finset.sum_range_succ
    (fun j => g (clampI ((x : ℤ) + (j : ℤ) - (r : ℤ)) n).toNat) (2 * r + 1)
  have hf0 : (x : ℤ) + ((0 : ℕ) : ℤ) - (r : ℤ) = (x : ℤ) - r := by push_cast; ring
  have hfend : (x : ℤ) + ((2 * r + 1 : ℕ) : ℤ) - (r : ℤ) = (x : ℤ) + r + 1 := by
    push_cast; ring
  rw [hf0] at hL
  rw [hfend] at hR
  omega

theorem list_range_map_sum (h : ℕ → ℕ) (r : ℕ) :
    ((List.range r).map h).sum = ∑ i ∈ Finset.range r, h i := by
  induction r with
  | zero => simp
  | succ m ih => rw [List.range_succ]; simp [ih, Finset.sum_range_succ]

theorem sum_range_split (h : ℕ → ℕ) (a b : ℕ) :
    ∑ j ∈ Finset.range (a + b), h j =
    (∑ j ∈ Finset.range a, h j) + ∑ i ∈ Finset.range b, h (a + i) := by
  induction b with
  | zero => simp
  | succ m ih =>
    rw [show a + (m + 1) = (a + m) + 1 from rfl, Finset.sum_range_succ, ih,
      Finset.sum_range_succ]
    omega

theorem winSum_zero_eq_prime (g : ℕ → ℕ) (n r : ℕ) (hn : 0 < n) :
    winSum g n r 0 =
    g 0 * (r + 1) + ((List.range r).map (fun i => g (min (i + 1) (n - 1)))).sum := by
  rw [list_range_map_sum]
  unfold winSum
  rw [show 2 * r + 1 = (r + 1) + r from by ring, sum_range_split]
  congr 1
  · rw [Finset.sum_congr rfl (fun j hj => by
      have hj' := Finset.mem_range.mp hj
      show g (clampI (((0 : ℕ) : ℤ) + (j : ℤ) - (r : ℤ)) n).toNat = g 0
      congr 1
      unfold clampI
      omega)]
    simp [Finset.sum_const, Nat.mul_comm]
  · apply Finset.sum_congr rfl
    intro i hi
    congr 1
    rcases Nat.le_total (i + 1) (n - 1) with hc | hc
    · rw [Nat.min_eq_left hc]
      unfold clampI
      omega
    · rw [Nat.min_eq_right hc]
      unfold clampI
      omega

theorem primeSums_eq (f : ℕ → ℕ) (n r : ℕ) (hn : 0 < n) :
    primeSums f n r =
      (winSum (fun i => chanR (f i)) n r 0,
       winSum (fun i => chanG (f i)) n r 0,
       winSum (fun i => chanB (f i)) n r 0) := by
  unfold primeSums
  rw [winSum_zero_eq_prime (fun i => chanR (f i)) n r hn,
    winSum_zero_eq_prime (fun i => chanG (f i)) n r hn,
    winSum_zero_eq_prime (fun i => chanB (f i)) n r hn]

theorem slideGo_getD (f : ℕ → ℕ) (n r : ℕ) :
    ∀ rem x, x + rem = n → ∀ k, k < rem →
    (slideGo f n r x rem
        (winSum (fun i => chanR (f i)) n r x,
         winSum (fun i => chanG (f i)) n r x,
         winSum (fun i => chanB (f i)) n r x)).getD k 0 =
      packRGB (winSum (fun i => chanR (f i)) n r (x + k) / (2 * r + 1))
        (winSum (fun i => chanG (f i)) n r (x + k) / (2 * r + 1))
        (winSum (fun i => chanB (f i)) n r (x + k) / (2 * r + 1)) := by
  intro rem
  induction rem with
  | zero => intro x hx k hk; omega
  | succ m ih =>
    intro x hx k hk
    have hxn : x < n := by omega
    have hupd : ∀ g : ℕ → ℕ,
        winSum (fun i => g (f i)) n r x + g (f (min (x + r + 1) (n - 1))) -
            g (f (x - r)) =
        winSum (fun i => g (f i)) n r (x + 1) := by
      intro g
      have h1 := winSum_succ (fun i => g (f i)) n r x
      rw [clampI_left x r n hxn, clampI_right x r n (by omega)] at h1
      omega
    rcases k with _ | k'
    · simp [slideGo]
    · have hstep := ih (x + 1) (by omega) k' (by omega)
      have hxk : x + 1 + k' = x + (k' + 1) := by omega
      rw [hxk] at hstep
      calc (slideGo f n r x (m + 1)
          (winSum (fun i => chanR (f i)) n r x,
           winSum (fun i => chanG (f i)) n r x,
           winSum (fun i => chanB (f i)) n r x)).getD (k' + 1) 0 =
          (slideGo f n r (x + 1) m
            (winSum (fun i => chanR (f i)) n r x +
                chanR (f (min (x + r + 1) (n - 1))) - chanR (f (x - r)),
             winSum (fun i => chanG (f i)) n r x +
                chanG (f (min (x + r + 1) (n - 1))) - chanG (f (x - r)),
             winSum (fun i => chanB (f i)) n r x +
                chanB (f (min (x + r + 1) (n - 1))) - chanB (f (x - r)))).getD k' 0 := by
            simp [slideGo]
        _ = packRGB (winSum (fun i => chanR (f i)) n r (x + (k' + 1)) / (2 * r + 1))
              (winSum (fun i => chanG (f i)) n r (x + (k' + 1)) / (2 * r + 1))
              (winSum (fun i => chanB (f i)) n r (x + (k' + 1)) / (2 * r + 1)) := by
            rw [hupd chanR, hupd chanG, hupd chanB]
            exact hstep

theorem slideLine_getD (f : ℕ → ℕ) (n r : ℕ) (x : ℕ) (hx : x < n) :
    (slideLine f n r).getD x 0 =
      packRGB (winSum (fun i => chanR (f i)) n r x / (2 * r + 1))
        (winSum (fun i => chanG (f i)) n r x / (2 * r + 1))
        (winSum (fun i => chanB (f i)) n r x / (2 * r + 1)) := by
  unfold slideLine
  rw [primeSums_eq f n r (by omega)]
  have := slideGo_getD f n r n 0 (by omega) x hx
  simpa using this

theorem winSum_le (g : ℕ → ℕ) (hg : ∀ i, g i ≤ 255) (n r x : ℕ) :
    winSum g n r x ≤ (2 * r + 1) * 255 := by
  unfold winSum
  calc ∑ j ∈ Finset.range (2 * r + 1), g (clampI ((x : ℤ) + j - r) n).toNat ≤
      ∑ _j ∈ Finset.range (2 * r + 1), 255 :=
        Finset.sum_le_sum (fun j _ => hg _)
    _ = (2 * r + 1) * 255 := by simp [Finset.sum_const, Nat.mul_comm]

theorem winDiv_le (g : ℕ → ℕ) (hg : ∀ i, g i ≤ 255) (n r x : ℕ) :
    winSum g n r x / (2 * r + 1) ≤ 255 := by
  have h1 := winSum_le g hg n r x
  have h2 : winSum g n r x / (2 * r + 1) ≤ (2 * r + 1) * 255 / (2 * r + 1) :=
    Nat.div_le_div_right h1
  rwa [Nat.mul_div_cancel_left _ (by omega : 0 < 2 * r + 1)] at h2

theorem getD_flatMap_uniform {α β : Type} (l : List α) (F : α → List β) (d : ℕ)
    (hd : ∀ a ∈ l, (F a).length = d) (a₀ : α) (b : β) :
    ∀ i j, i < l.length → j < d →
    (l.flatMap F).getD (i * d + j) b = (F (l.getD i a₀)).getD j b := by
  induction l with
  | nil => intro i j hi _; simp at hi
  | cons a as ih =>
    intro i j hi hj
    rw [List.flatMap_cons]
    rcases i with _ | i'
    · rw [List.getD_append _ _ _ _ (by rw [hd a (by simp)]; simpa using hj)]
      simp
    · have hidx : (i' + 1) * d + j = d + (i' * d + j) := by ring
      rw [hidx,
        List.getD_append_right _ _ _ _ (by rw [hd a (by simp)]; omega)]
      rw [hd a (by simp), show d + (i' * d + j) - d = i' * d + j from by omega]
      rw [show (a :: as).getD (i' + 1) a₀ = as.getD i' a₀ from by simp]
      exact ih (fun b hb => hd b (by simp [hb])) i' j (by simpa using hi) hj

theorem getD_range (n i d : ℕ) (h : i < n) : (List.range n).getD i d = i := by
  rw [List.getD_eq_getElem?_getD, List.getElem?_eq_getElem (by simpa using h)]
  simp

/-- Claim C4 amended: with matching dimensions, the incremental two-pass
sliding-window implementation writes into the destination, for every pixel
and channel, exactly the direct separable edge-clamped box filter: the
integer window average (window `2r+1`) over rows into the scratch buffer,
then the integer window average over columns of the scratch.  The claim's
single 2-D box average differs from this because each pass rounds with
integer division (see the counterexample). -/
theorem box_blur_two_pass_separable
    (src tmp dst : FrameBuffer) (r : ℕ)
    (hdw : dst.width = src.width) (hdh : dst.height = src.height)
    (htw : tmp.width = src.width) (hth : tmp.height = src.height) :
    ∃ t d, box_blur_rgb src tmp dst r = .ok (t, d) ∧
      d.width = src.width ∧ d.height = src.height ∧
      ∀ x, x < src.width → ∀ y, y < src.height →
        ∀ c ∈ [chanR, chanG, chanB],
          c (t.pixels.getD (y * src.width + x) 0) = hPassSpec src c r x y ∧
          c (d.pixels.getD (y * src.width + x) 0) = boxBlurSepSpec src c r x y := by
  have h1 : ¬ (src.width ≠ dst.width ∨ src.height ≠ dst.height) := by
    rw [hdw, hdh]; simp
  have h2 : ¬ (tmp.width ≠ src.width ∨ tmp.height ≠ src.height) := by
    rw [htw, hth]; simp
  refine ⟨⟨tmp.width, tmp.height,
      (List.range src.height).flatMap (fun y =>
        slideLine (fun i => src.pixels.getD (y * src.width + i) 0) src.width r)⟩,
    ⟨dst.width, dst.height,
      (List.range src.height).flatMap (fun y =>
        (List.range src.width).map (fun x =>
          (slideLine (fun j =>
            ((List.range src.height).flatMap (fun y =>
              slideLine (fun i => src.pixels.getD (y * src.width + i) 0)
                src.width r)).getD (j * src.width + x) 0) src.height r).getD y 0))⟩,
    ?_, by rw [hdw], by rw [hdh], ?_⟩
  · rw [box_blur_rgb, if_neg h1, if_neg h2]
  · intro x hx y hy c hc
    have hh0 : 0 < src.height := by omega
    have htmpAt : ∀ x' y', x' < src.width → y' < src.height →
        ((List.range src.height).flatMap (fun y =>
          slideLine (fun i => src.pixels.getD (y * src.width + i) 0)
            src.width r)).getD (y' * src.width + x') 0 =
        packRGB
          (winSum (fun i => chanR (src.pixels.getD (y' * src.width + i) 0))
            src.width r x' / (2 * r + 1))
          (winSum (fun i => chanG (src.pixels.getD (y' * src.width + i) 0))
            src.width r x' / (2 * r + 1))
          (winSum (fun i => chanB (src.pixels.getD (y' * src.width + i) 0))
            src.width r x' / (2 * r + 1)) := by
      intro x' y' hx' hy'
      rw [getD_flatMap_uniform (List.range src.height) _ src.width
        (fun a _ => slideLine_length _ _ _) 0 0 y' x' (by simpa using hy') hx']
      rw [getD_range _ _ _ hy']
      exact slideLine_getD _ _ _ _ hx'
    have htmpChan : ∀ (c : ℕ → ℕ), c = chanR ∨ c = chanG ∨ c = chanB →
        ∀ x' y', x' < src.width → y' < src.height →
        c (((List.range src.height).flatMap (fun y =>
          slideLine (fun i => src.pixels.getD (y * src.width + i) 0)
            src.width r)).getD (y' * src.width + x') 0) =
          hPassSpec src c r x' y' := by
      intro c hcs x' y' hx' hy'
      rw [htmpAt x' y' hx' hy']
      rcases hcs with rfl | rfl | rfl
      · rw [chanR_packRGB _ _ _ (winDiv_le _ (fun i => chanR_le _) _ _ _)
          (winDiv_le _ (fun i => chanG_le _) _ _ _)
          (winDiv_le _ (fun i => chanB_le _) _ _ _)]
        rfl
      · rw [chanG_packRGB _ _ _ (winDiv_le _ (fun i => chanR_le _) _ _ _)
          (winDiv_le _ (fun i => chanG_le _) _ _ _)
          (winDiv_le _ (fun i => chanB_le _) _ _ _)]
        rfl
      · rw [chanB_packRGB _ _ _ (winDiv_le _ (fun i => chanR_le _) _ _ _)
          (winDiv_le _ (fun i => chanG_le _) _ _ _)
          (winDiv_le _ (fun i => chanB_le _) _ _ _)]
        rfl
    have hdstAt :
        ((List.range src.height).flatMap (fun y =>
          (List.range src.width).map (fun x =>
            (slideLine (fun j =>
              ((List.range src.height).flatMap (fun y =>
                slideLine (fun i => src.pixels.getD (y * src.width + i) 0)
                  src.width r)).getD (j * src.width + x) 0)
              src.height r).getD y 0))).getD (y * src.width + x) 0 =
        (slideLine (fun j =>
          ((List.range src.height).flatMap (fun y =>
            slideLine (fun i => src.pixels.getD (y * src.width + i) 0)
              src.width r)).getD (j * src.width + x) 0) src.height r).getD y 0 := by
      rw [getD_flatMap_uniform (List.range src.height) _ src.width
        (fun a _ => by simp) 0 0 y x (by simpa using hy) hx]
      rw [getD_range _ _ _ hy]
      exact getD_range_map _ _ _ _ hx
    have hcs : c = chanR ∨ c = chanG ∨ c = chanB := by simpa using hc
    constructor
    · exact htmpChan c hcs x y hx hy
    · rw [hdstAt, slideLine_getD _ _ _ y hy]
      have hsum : ∀ (cc : ℕ → ℕ), cc = chanR ∨ cc = chanG ∨ cc = chanB →
          winSum (fun j => cc (((List.range src.height).flatMap (fun y =>
              slideLine (fun i => src.pixels.getD (y * src.width + i) 0)
                src.width r)).getD (j * src.width + x) 0)) src.height r y =
          ∑ j ∈ Finset.range (2 * r + 1),
            hPassSpec src cc r x (clampI ((y : ℤ) + j - r) src.height).toNat := by
        intro cc hccs
        unfold winSum
        apply Finset.sum_congr rfl
        intro j _
        exact htmpChan cc hccs x _ hx (clampI_lt _ _ hh0)
      rcases hcs with rfl | rfl | rfl
      · rw [chanR_packRGB _ _ _ (winDiv_le _ (fun i => chanR_le _) _ _ _)
          (winDiv_le _ (fun i => chanG_le _) _ _ _)
          (winDiv_le _ (fun i => chanB_le _) _ _ _)]
        rw [boxBlurSepSpec, hsum chanR (Or.inl rfl)]
      · rw [chanG_packRGB _ _ _ (winDiv_le _ (fun i => chanR_le _) _ _ _)
          (winDiv_le _ (fun i => chanG_le _) _ _ _)
          (winDiv_le _ (fun i => chanB_le _) _ _ _)]
        rw [boxBlurSepSpec, hsum chanG (Or.inr (Or.inl rfl))]
      · rw [chanB_packRGB _ _ _ (winDiv_le _ (fun i => chanR_le _) _ _ _)
          (winDiv_le _ (fun i => chanG_le _) _ _ _)
          (winDiv_le _ (fun i => chanB_le _) _ _ _)]
        rw [boxBlurSepSpec, hsum chanB (Or.inr (Or.inr rfl))]

/-- Claim C4 as stated is false: on the 2×3 source `[1,0, 1,0, 2,1]` with
radius 1, the two-pass implementation writes 0 into the blue channel of the
pixel at (x, y) = (0, 1), while the direct 2-D edge-clamped box average of
the source samples at that pixel is 1 (the horizontal pass's integer
division discards remainders that the direct definition keeps). -/
theorem box_blur_direct2d_counterexample :
    box_blur_rgb ⟨2, 3, [1, 0, 1, 0, 2, 1]⟩ ⟨2, 3, [0, 0, 0, 0, 0, 0]⟩
        ⟨2, 3, [0, 0, 0, 0, 0, 0]⟩ 1 =
      .ok (⟨2, 3, [0, 0, 0, 0, 1, 1]⟩, ⟨2, 3, [0, 0, 0, 0, 0, 0]⟩) ∧
    chanB ((⟨2, 3, [0, 0, 0, 0, 0, 0]⟩ : FrameBuffer).pixels.getD (1 * 2 + 0) 0) = 0 ∧
    boxBlur2DSpec ⟨2, 3, [1, 0, 1, 0, 2, 1]⟩ chanB 1 0 1 = 1 ∧
    (0 : ℕ) ≠ 1 := by
  refine ⟨by rfl, by decide, by decide, by decide⟩

/-- Closed witness for the amended claim C4 at a concrete 2×2 frame. -/
theorem box_blur_two_pass_separable_witness :
    ∃ t d, box_blur_rgb ⟨2, 2, [1, 2, 3, 4]⟩ ⟨2, 2, [0, 0, 0, 0]⟩
        ⟨2, 2, [0, 0, 0, 0]⟩ 1 = .ok (t, d) ∧
      d.width = (⟨2, 2, [1, 2, 3, 4]⟩ : FrameBuffer).width ∧
      d.height = (⟨2, 2, [1, 2, 3, 4]⟩ : FrameBuffer).height ∧
      ∀ x, x < (⟨2, 2, [1, 2, 3, 4]⟩ : FrameBuffer).width →
        ∀ y, y < (⟨2, 2, [1, 2, 3, 4]⟩ : FrameBuffer).height →
        ∀ c ∈ [chanR, chanG, chanB],
          c (t.pixels.getD (y * (⟨2, 2, [1, 2, 3, 4]⟩ : FrameBuffer).width + x) 0) =
            hPassSpec ⟨2, 2, [1, 2, 3, 4]⟩ c 1 x y ∧
          c (d.pixels.getD (y * (⟨2, 2, [1, 2, 3, 4]⟩ : FrameBuffer).width + x) 0) =
            boxBlurSepSpec ⟨2, 2, [1, 2, 3, 4]⟩ c 1 x y :=
  box_blur_two_pass_separable ⟨2, 2, [1, 2, 3, 4]⟩ ⟨2, 2, [0, 0, 0, 0]⟩
    ⟨2, 2, [0, 0, 0, 0]⟩ 1 rfl rfl rfl rfl

/-- Closed witness for claim C1 at three concrete 1×1 frames. -/
theorem median_background_median_witness :
    ∃ out, median_background
        [⟨1, 1, [66051]⟩, ⟨1, 1, [197121]⟩, ⟨1, 1, [131586]⟩] = .ok out ∧
      out.width = 1 ∧ out.height = 1 ∧ out.pixels.length = 1 * 1 ∧
      ∀ idx, idx < 1 * 1 → ∀ c ∈ [chanR, chanG, chanB],
        (List.insertionSort (· ≤ ·)
            (([⟨1, 1, [66051]⟩, ⟨1, 1, [197121]⟩, ⟨1, 1, [131586]⟩] :
              List FrameBuffer).map (fun f => c (f.pixels.getD idx 0)))).Perm
          (([⟨1, 1, [66051]⟩, ⟨1, 1, [197121]⟩, ⟨1, 1, [131586]⟩] :
            List FrameBuffer).map (fun f => c (f.pixels.getD idx 0))) ∧
        List.Sorted (· ≤ ·)
          (List.insertionSort (· ≤ ·)
            (([⟨1, 1, [66051]⟩, ⟨1, 1, [197121]⟩, ⟨1, 1, [131586]⟩] :
              List FrameBuffer).map (fun f => c (f.pixels.getD idx 0)))) ∧
        c (out.pixels.getD idx 0) =
          (List.insertionSort (· ≤ ·)
            (([⟨1, 1, [66051]⟩, ⟨1, 1, [197121]⟩, ⟨1, 1, [131586]⟩] :
              List FrameBuffer).map (fun f => c (f.pixels.getD idx 0)))).getD
            (([⟨1, 1, [66051]⟩, ⟨1, 1, [197121]⟩, ⟨1, 1, [131586]⟩] :
              List FrameBuffer).length / 2) 0 :=
  median_background_is_per_channel_median
    [⟨1, 1, [66051]⟩, ⟨1, 1, [197121]⟩, ⟨1, 1, [131586]⟩] 1 1
    (by decide) (by decide)

/-! ### `make_gaussian_stamp` and `dab_mask` (`src/vision.rs` lines 66-112) -/

/-- Inclusive integer range `lo..=hi` as a list (the `for v in lo..=hi`
loops). -/
def rangeClosed (lo hi : ℤ) : List ℤ :=
  (List.range (hi + 1 - lo).toNat).map (fun (i : ℕ) => lo + (i : ℤ))

/-- The raw (pre-normalization) weights of `make_gaussian_stamp`: the
nested `for y in -radius..=radius { for x in -radius..=radius }` pushes of
`exp(-(x²+y²) / (2·sigma²))`. -/
def gaussWeightsRaw (expf : ℚ → ℚ) (radius : ℤ) (sigma : ℚ) : List ℚ :=
  (rangeClosed (-radius) radius).flatMap (fun (y : ℤ) =>
    (rangeClosed (-radius) radius).map (fun (x : ℤ) =>
      expf (-((x : ℚ) * (x : ℚ) + (y : ℚ) * (y : ℚ)) / (2 * sigma * sigma))))

/-- Model of `make_gaussian_stamp`, parametric in the `f32::exp` library
call: build the radially symmetric weights, find the maximum, normalize to
peak 1 when the maximum is positive. -/
def make_gaussian_stamp (expf : ℚ → ℚ) (radius : ℤ) (sigma : ℚ) : Stamp :=
  let weights := gaussWeightsRaw expf radius sigma
  let maxw := weights.foldl (fun m w => if w > m then w else m) 0
  if maxw > 0 then ⟨radius, weights.map (fun w => w / maxw)⟩
  else ⟨radius, weights⟩

/-- One kernel cell of `dab_mask`: skip if the cell projects out of
bounds, otherwise add the stamp weight to the mask value and clamp at 1. -/
def dabCell (w h cx cy : ℤ) (stamp : Stamp) (m : Mask) (ky kx : ℤ) : Mask :=
  let r := stamp.radius
  let d := 2 * r + 1
  let sx := cx + kx - r
  let sy := cy + ky - r
  if sx < 0 ∨ sy < 0 ∨ sx ≥ w ∨ sy ≥ h then m
  else
    let idx := sy.toNat * m.width + sx.toNat
    let kidx := ky.toNat * d.toNat + kx.toNat
    let a := m.alpha.getD idx 0 + stamp.weights.getD kidx 0
    { m with alpha := m.alpha.set idx (if a > 1 then 1 else a) }

/-- Model of `dab_mask`: the nested `for ky in 0..d { for kx in 0..d }`
loops over the kernel cells. -/
def dab_mask (mask : Mask) (cx cy : ℤ) (stamp : Stamp) : Mask :=
  let w : ℤ := mask.width
  let h : ℤ := mask.height
  let d := 2 * stamp.radius + 1
  (rangeClosed 0 (d - 1)).foldl (fun m ky =>
    (rangeClosed 0 (d - 1)).foldl (fun m kx =>
      dabCell w h cx cy stamp m ky kx) m) mask

theorem mem_rangeClosed {lo hi z : ℤ} (h : z ∈ rangeClosed lo hi) :
    lo ≤ z ∧ z ≤ hi := by
  obtain ⟨i, hi', rfl⟩ := List.mem_map.mp h
  have := List.mem_range.mp hi'
  omega

theorem rangeClosed_length (lo hi : ℤ) :
    (rangeClosed lo hi).length = (hi + 1 - lo).toNat := by
  unfold rangeClosed
  simp

theorem getD_rangeClosed (lo hi : ℤ) (k : ℕ) (d : ℤ)
    (hk : k < (hi + 1 - lo).toNat) :
    (rangeClosed lo hi).getD k d = lo + k := by
  unfold rangeClosed
  exact getD_range_map _ _ _ _ hk

theorem foldlMax_ge_init (l : List ℚ) (m : ℚ) :
    m ≤ l.foldl (fun m w => if w > m then w else m) m := by
  induction l generalizing m with
  | nil => simp
  | cons a as ih =>
    simp only [List.foldl_cons]
    calc m ≤ (if a > m then a else m) := by split <;> linarith
      _ ≤ _ := ih _

theorem foldlMax_ge_mem (l : List ℚ) (m : ℚ) :
    ∀ w ∈ l, w ≤ l.foldl (fun m w => if w > m then w else m) m := by
  induction l generalizing m with
  | nil => simp
  | cons a as ih =>
    intro w hw
    simp only [List.foldl_cons]
    rcases List.mem_cons.mp hw with rfl | hw'
    · calc w ≤ (if w > m then w else m) := by split <;> linarith
        _ ≤ _ := foldlMax_ge_init as _
    · exact ih _ w hw'

theorem foldlMax_le (l : List ℚ) (m c : ℚ) (hm : m ≤ c)
    (hl : ∀ w ∈ l, w ≤ c) :
    l.foldl (fun m w => if w > m then w else m) m ≤ c := by
  induction l generalizing m with
  | nil => simpa
  | cons a as ih =>
    simp only [List.foldl_cons]
    exact ih _ (by have := hl a (by simp); split <;> linarith)
      (fun w hw => hl w (by simp [hw]))

theorem foldl_preserve {α β : Type} (P : β → Prop) (f : β → α → β)
    (l : List α) (b : β) (hb : P b)
    (hf : ∀ b' a, a ∈ l → P b' → P (f b' a)) : P (l.foldl f b) := by
  induction l generalizing b with
  | nil => simpa
  | cons a as ih =>
    simp only [List.foldl_cons]
    exact ih (f b a) (hf b a (by simp) hb)
      (fun b' a' ha' hb' => hf b' a' (by simp [ha']) hb')

theorem getD_mem {α : Type} (l : List α) (j : ℕ) (d : α) (h : j < l.length) :
    l.getD j d ∈ l := by
  rw [List.getD_eq_getElem?_getD, List.getElem?_eq_getElem h]
  exact List.getElem_mem h

theorem getD_nonneg (l : List ℚ) (hl : ∀ w ∈ l, 0 ≤ w) (k : ℕ) :
    0 ≤ l.getD k 0 := by
  by_cases h : k < l.length
  · exact hl _ (getD_mem l k 0 h)
  · rw [List.getD_eq_getElem?_getD, List.getElem?_eq_none (by omega)]
    simp

theorem getD_set_ne {α : Type} (l : List α) (i j : ℕ) (a d : α) (h : i ≠ j) :
    (l.set i a).getD j d = l.getD j d := by
  rw [List.getD_eq_getElem?_getD, List.getD_eq_getElem?_getD,
    List.getElem?_set_ne h]

theorem getD_set_self {α : Type} (l : List α) (i : ℕ) (a d : α)
    (h : i < l.length) :
    (l.set i a).getD i d = a := by
  rw [List.getD_eq_getElem?_getD,
    List.getElem?_eq_getElem (by simpa using h), List.getElem_set_self]
  rfl

theorem map_flatMap_uniform {α β γ : Type} (g : β → γ) (F : α → List β)
    (l : List α) :
    (l.flatMap F).map g = l.flatMap (fun a => (F a).map g) := by
  induction l with
  | nil => rfl
  | cons a as ih => simp only [List.flatMap_cons, List.map_append, ih]

theorem gaussWeightsRaw_mem_bounds (expf : ℚ → ℚ)
    (hexp : ∀ q : ℚ, q ≤ 0 → 0 < expf q ∧ expf q ≤ 1)
    (radius : ℤ) (sigma : ℚ) (hs : 0 < sigma) :
    ∀ w ∈ gaussWeightsRaw expf radius sigma, 0 < w ∧ w ≤ 1 := by
  intro w hw
  obtain ⟨y, _, hw'⟩ := List.mem_flatMap.mp hw
  obtain ⟨x, _, rfl⟩ := List.mem_map.mp hw'
  apply hexp
  have hnum : (0:ℚ) ≤ (x:ℚ) * (x:ℚ) + (y:ℚ) * (y:ℚ) := by nlinarith [mul_self_nonneg ((x:ℚ)), mul_self_nonneg ((y:ℚ))]
  have hden : (0:ℚ) < 2 * sigma * sigma := by nlinarith
  have hq := div_nonneg hnum (le_of_lt hden)
  rw [neg_div]
  linarith

theorem zero_mem_rangeClosed (radius : ℤ) (hr : 0 ≤ radius) :
    (0:ℤ) ∈ rangeClosed (-radius) radius := by
  unfold rangeClosed
  exact List.mem_map.mpr ⟨radius.toNat, List.mem_range.mpr (by omega), by omega⟩

theorem one_mem_gaussWeightsRaw (expf : ℚ → ℚ) (hexp0 : expf 0 = 1)
    (radius : ℤ) (hr : 0 ≤ radius) (sigma : ℚ) :
    (1:ℚ) ∈ gaussWeightsRaw expf radius sigma := by
  unfold gaussWeightsRaw
  refine List.mem_flatMap.mpr ⟨0, zero_mem_rangeClosed radius hr, ?_⟩
  refine List.mem_map.mpr ⟨0, zero_mem_rangeClosed radius hr, ?_⟩
  rw [show -((((0:ℤ):ℚ)) * (((0:ℤ):ℚ)) + (((0:ℤ):ℚ)) * (((0:ℤ):ℚ))) /
      (2 * sigma * sigma) = 0 from by norm_num]
  exact hexp0

theorem gauss_maxw_eq_one (expf : ℚ → ℚ) (hexp0 : expf 0 = 1)
    (hexp : ∀ q : ℚ, q ≤ 0 → 0 < expf q ∧ expf q ≤ 1)
    (radius : ℤ) (hr : 0 ≤ radius) (sigma : ℚ) (hs : 0 < sigma) :
    (gaussWeightsRaw expf radius sigma).foldl
      (fun m w => if w > m then w else m) 0 = 1 := by
  apply le_antisymm
  · exact foldlMax_le _ _ _ (by norm_num)
      (fun w hw => (gaussWeightsRaw_mem_bounds expf hexp radius sigma hs w hw).2)
  · exact foldlMax_ge_mem _ _ 1 (one_mem_gaussWeightsRaw expf hexp0 radius hr sigma)

theorem gauss_center_weight (expf : ℚ → ℚ) (hexp0 : expf 0 = 1)
    (hexp : ∀ q : ℚ, q ≤ 0 → 0 < expf q ∧ expf q ≤ 1)
    (radius : ℤ) (hr : 0 ≤ radius) (sigma : ℚ) (hs : 0 < sigma) :
    (make_gaussian_stamp expf radius sigma).weights.getD
      (radius.toNat * (2 * radius + 1).toNat + radius.toNat) 0 = 1 := by
  simp only [make_gaussian_stamp]
  rw [gauss_maxw_eq_one expf hexp0 hexp radius hr sigma hs]
  rw [if_pos (by norm_num : (1:ℚ) > 0)]
  show ((gaussWeightsRaw expf radius sigma).map (fun w => w / 1)).getD
    (radius.toNat * (2 * radius + 1).toNat + radius.toNat) 0 = 1
  unfold gaussWeightsRaw
  rw [map_flatMap_uniform]
  rw [getD_flatMap_uniform (rangeClosed (-radius) radius) _ (2 * radius + 1).toNat
    (fun a _ => by
      rw [List.length_map, List.length_map, rangeClosed_length]
      omega)
    0 0 radius.toNat radius.toNat
    (by rw [rangeClosed_length]; omega) (by omega)]
  rw [getD_rangeClosed _ _ _ _ (by omega)]
  rw [List.map_map]
  unfold rangeClosed
  rw [List.map_map]
  rw [getD_range_map _ _ _ _ (by omega)]
  simp only [Function.comp]
  have hz : -radius + (radius.toNat : ℤ) = 0 := by omega
  rw [hz]
  norm_num [hexp0]

theorem gauss_weights_in_unit (expf : ℚ → ℚ) (hexp0 : expf 0 = 1)
    (hexp : ∀ q : ℚ, q ≤ 0 → 0 < expf q ∧ expf q ≤ 1)
    (radius : ℤ) (hr : 0 ≤ radius) (sigma : ℚ) (hs : 0 < sigma) :
    ∀ w ∈ (make_gaussian_stamp expf radius sigma).weights, 0 ≤ w ∧ w ≤ 1 := by
  simp only [make_gaussian_stamp]
  rw [gauss_maxw_eq_one expf hexp0 hexp radius hr sigma hs]
  rw [if_pos (by norm_num : (1:ℚ) > 0)]
  show ∀ w ∈ (gaussWeightsRaw expf radius sigma).map (fun w => w / 1), 0 ≤ w ∧ w ≤ 1
  intro w hw
  obtain ⟨w0, hw0, rfl⟩ := List.mem_map.mp hw
  have hb := gaussWeightsRaw_mem_bounds expf hexp radius sigma hs w0 hw0
  rw [div_one]
  exact ⟨le_of_lt hb.1, hb.2⟩

/-- The dab invariant: dimensions and length preserved, every mask value
only grows, never exceeds 1, and every pixel outside the stamp footprint
is unchanged. -/
def dabInv (mask : Mask) (cx cy : ℤ) (stamp : Stamp) (m : Mask) : Prop :=
  m.width = mask.width ∧ m.height = mask.height ∧
  m.alpha.length = mask.alpha.length ∧
  ∀ j, j < mask.alpha.length →
    mask.alpha.getD j 0 ≤ m.alpha.getD j 0 ∧ m.alpha.getD j 0 ≤ 1 ∧
    ((((j % mask.width : ℕ) : ℤ) < cx - stamp.radius ∨
      ((j % mask.width : ℕ) : ℤ) > cx + stamp.radius ∨
      ((j / mask.width : ℕ) : ℤ) < cy - stamp.radius ∨
      ((j / mask.width : ℕ) : ℤ) > cy + stamp.radius) →
      m.alpha.getD j 0 = mask.alpha.getD j 0)

theorem dabInv_set (mask : Mask) (cx cy : ℤ) (stamp : Stamp) (m : Mask)
    (hP : dabInv mask cx cy stamp m) (sx sy : ℤ)
    (hsx0 : 0 ≤ sx) (hsy0 : 0 ≤ sy)
    (hsxw : sx < (mask.width : ℤ)) (_hsyh : sy < (mask.height : ℤ))
    (hsxc1 : cx - stamp.radius ≤ sx) (hsxc2 : sx ≤ cx + stamp.radius)
    (hsyc1 : cy - stamp.radius ≤ sy) (hsyc2 : sy ≤ cy + stamp.radius)
    (wgt : ℚ) (hwgt : 0 ≤ wgt) :
    dabInv mask cx cy stamp
      { m with alpha := (m.alpha.set (sy.toNat * m.width + sx.toNat)
          (if m.alpha.getD (sy.toNat * m.width + sx.toNat) 0 + wgt > 1 then 1
           else m.alpha.getD (sy.toNat * m.width + sx.toNat) 0 + wgt)) } := by
  obtain ⟨hPw, hPh, hPl, hPj⟩ := hP
  have hWpos : 0 < mask.width := by omega
  have hsxlt : sx.toNat < mask.width := by omega
  have hcm : (sy.toNat * m.width + sx.toNat) % mask.width = sx.toNat := by
    rw [hPw, Nat.mul_comm sy.toNat mask.width, Nat.mul_add_mod,
      Nat.mod_eq_of_lt hsxlt]
  have hcd : (sy.toNat * m.width + sx.toNat) / mask.width = sy.toNat := by
    rw [hPw, Nat.mul_comm, Nat.mul_add_div hWpos, Nat.div_eq_of_lt hsxlt,
      Nat.add_zero]
  refine ⟨hPw, hPh, by simpa [List.length_set] using hPl, ?_⟩
  intro j hj
  by_cases hji : j = sy.toNat * m.width + sx.toNat
  · subst hji
    have hidxlt : sy.toNat * m.width + sx.toNat < m.alpha.length := by
      rw [hPl]; exact hj
    obtain ⟨ho1, ho2, _⟩ := hPj _ hj
    have hset := getD_set_self m.alpha (sy.toNat * m.width + sx.toNat)
      (if m.alpha.getD (sy.toNat * m.width + sx.toNat) 0 + wgt > 1 then 1
       else m.alpha.getD (sy.toNat * m.width + sx.toNat) 0 + wgt) 0 hidxlt
    refine ⟨?_, ?_, ?_⟩
    · show mask.alpha.getD _ 0 ≤ (m.alpha.set _ _).getD _ 0
      rw [hset]
      split <;> linarith
    · show (m.alpha.set _ _).getD _ 0 ≤ 1
      rw [hset]
      split
      · linarith
      · linarith
    · intro hout
      exfalso
      rw [hcm, hcd] at hout
      omega
  · obtain ⟨h1, h2, h3⟩ := hPj j hj
    have hne : sy.toNat * m.width + sx.toNat ≠ j := fun h => hji h.symm
    refine ⟨?_, ?_, ?_⟩
    · show mask.alpha.getD j 0 ≤ (m.alpha.set _ _).getD j 0
      rw [getD_set_ne _ _ _ _ _ hne]
      exact h1
    · show (m.alpha.set _ _).getD j 0 ≤ 1
      rw [getD_set_ne _ _ _ _ _ hne]
      exact h2
    · intro hout
      show (m.alpha.set _ _).getD j 0 = mask.alpha.getD j 0
      rw [getD_set_ne _ _ _ _ _ hne]
      exact h3 hout

theorem dabCell_preserve (mask : Mask) (cx cy : ℤ) (stamp : Stamp)
    (hwts : ∀ w ∈ stamp.weights, 0 ≤ w) (m : Mask) (ky kx : ℤ)
    (hky0 : 0 ≤ ky) (hky1 : ky ≤ 2 * stamp.radius)
    (hkx0 : 0 ≤ kx) (hkx1 : kx ≤ 2 * stamp.radius)
    (hP : dabInv mask cx cy stamp m) :
    dabInv mask cx cy stamp
      (dabCell mask.width mask.height cx cy stamp m ky kx) := by
  unfold dabCell
  by_cases hoob : cx + kx - stamp.radius < 0 ∨ cy + ky - stamp.radius < 0 ∨
      cx + kx - stamp.radius ≥ (mask.width : ℤ) ∨
      cy + ky - stamp.radius ≥ (mask.height : ℤ)
  · rw [if_pos hoob]
    exact hP
  · rw [if_neg hoob]
    push_neg at hoob
    obtain ⟨hsx0, hsy0, hsxw, hsyh⟩ := hoob
    exact dabInv_set mask cx cy stamp m hP
      (cx + kx - stamp.radius) (cy + ky - stamp.radius)
      hsx0 hsy0 hsxw hsyh (by omega) (by omega) (by omega) (by omega)
      (stamp.weights.getD
        (ky.toNat * (2 * stamp.radius + 1).toNat + kx.toNat) 0)
      (getD_nonneg _ hwts _)

theorem dab_mask_inv (mask : Mask) (cx cy : ℤ) (stamp : Stamp)
    (hmask : ∀ a ∈ mask.alpha, 0 ≤ a ∧ a ≤ 1)
    (hwts : ∀ w ∈ stamp.weights, 0 ≤ w) :
    dabInv mask cx cy stamp (dab_mask mask cx cy stamp) := by
  have hbase : dabInv mask cx cy stamp mask := by
    refine ⟨rfl, rfl, rfl, ?_⟩
    intro j hj
    exact ⟨le_refl _, (hmask _ (getD_mem _ _ _ hj)).2, fun _ => rfl⟩
  unfold dab_mask
  apply foldl_preserve _ _ _ _ hbase
  intro m ky hky hP
  apply foldl_preserve _ _ _ _ hP
  intro m' kx hkx hP'
  have hky' := mem_rangeClosed hky
  have hkx' := mem_rangeClosed hkx
  exact dabCell_preserve mask cx cy stamp hwts m' ky kx hky'.1 (by omega)
    hkx'.1 (by omega) hP'

/-- Claim C6: a stamp built by `make_gaussian_stamp` (radius ≥ 0,
sigma > 0, `exp` any function with `exp 0 = 1` and values in `(0, 1]` on
nonpositive arguments, as IEEE `exp` satisfies) has centre weight exactly
1 and all weights in `[0, 1]`; and `dab_mask` on a mask with values in
`[0, 1]` and a nonnegative-weight stamp preserves dimensions, only
increases mask values, clamps every value at 1, and leaves every pixel
outside the stamp footprint (including all out-of-bounds cells, which are
skipped) unchanged. -/
theorem stamp_center_one_and_dab_saturating
    (expf : ℚ → ℚ) (hexp0 : expf 0 = 1)
    (hexp : ∀ q : ℚ, q ≤ 0 → 0 < expf q ∧ expf q ≤ 1)
    (radius : ℤ) (hr : 0 ≤ radius) (sigma : ℚ) (hs : 0 < sigma)
    (mask : Mask) (cx cy : ℤ) (stamp : Stamp)
    (hmask : ∀ a ∈ mask.alpha, 0 ≤ a ∧ a ≤ 1)
    (hwts : ∀ w ∈ stamp.weights, 0 ≤ w) :
    (make_gaussian_stamp expf radius sigma).weights.getD
        (radius.toNat * (2 * radius + 1).toNat + radius.toNat) 0 = 1 ∧
    (∀ w ∈ (make_gaussian_stamp expf radius sigma).weights, 0 ≤ w ∧ w ≤ 1) ∧
    dabInv mask cx cy stamp (dab_mask mask cx cy stamp) :=
  ⟨gauss_center_weight expf hexp0 hexp radius hr sigma hs,
   gauss_weights_in_unit expf hexp0 hexp radius hr sigma hs,
   dab_mask_inv mask cx cy stamp hmask hwts⟩

/-- Closed witness for claim C6 at concrete inputs. -/
theorem stamp_center_one_and_dab_saturating_witness :
    (make_gaussian_stamp (fun _ => 1) 1 1).weights.getD
        ((1:ℤ).toNat * (2 * 1 + 1 : ℤ).toNat + (1:ℤ).toNat) 0 = 1 ∧
    (∀ w ∈ (make_gaussian_stamp (fun _ => 1) 1 1).weights, 0 ≤ w ∧ w ≤ 1) ∧
    dabInv ⟨2, 2, [0, 1/2, 1, 0]⟩ 0 0 ⟨1, [1, 1, 1, 1, 1, 1, 1, 1, 1]⟩
      (dab_mask ⟨2, 2, [0, 1/2, 1, 0]⟩ 0 0 ⟨1, [1, 1, 1, 1, 1, 1, 1, 1, 1]⟩) :=
  stamp_center_one_and_dab_saturating (fun _ => 1) rfl
    (fun q _ => by norm_num) 1 (by norm_num) 1 (by norm_num)
    ⟨2, 2, [0, 1/2, 1, 0]⟩ 0 0 ⟨1, [1, 1, 1, 1, 1, 1, 1, 1, 1]⟩
    (by
      intro a ha
      fin_cases ha <;> norm_num)
    (by
      intro w hw
      fin_cases hw <;> norm_num)

/-! ### Claim C7: error conditions -/

/-- Claim C7: `median_background` fails exactly on empty input or a frame
whose dimensions differ from the first frame's; `box_blur_rgb` fails
exactly when the destination or scratch dimensions differ from the
source's; `blend_linear_in_place` fails exactly when the sink or mask
dimensions differ from the foreground's.  In every case the error is the
operation's synchronous result (the `Except.error` value is returned
before any output is produced — the model returns no buffer at all on the
error path) and no other input leads to an error. -/
theorem pipeline_error_conditions :
    (∀ frames : List FrameBuffer,
      (∃ e, median_background frames = .error e) ↔
        (frames = [] ∨ ∃ f ∈ frames,
          f.width ≠ (frames.headD ⟨0, 0, []⟩).width ∨
          f.height ≠ (frames.headD ⟨0, 0, []⟩).height)) ∧
    (∀ (src tmp dst : FrameBuffer) (radius : ℕ),
      (∃ e, box_blur_rgb src tmp dst radius = .error e) ↔
        (src.width ≠ dst.width ∨ src.height ≠ dst.height ∨
         tmp.width ≠ src.width ∨ tmp.height ≠ src.height)) ∧
    (∀ (fg sink : FrameBuffer) (mask : Mask) (lut : GammaLut),
      (∃ e, blend_linear_in_place fg sink mask lut = .error e) ↔
        (fg.width ≠ sink.width ∨ fg.height ≠ sink.height ∨
         mask.width ≠ fg.width ∨ mask.height ≠ fg.height)) := by
  refine ⟨?_, ?_, ?_⟩
  · intro frames
    simp only [median_background]
    split_ifs with h1 h2
    · simp [h1]
    · simp only [h1, false_or]
      constructor
      · intro _; exact h2
      · intro _; exact ⟨_, rfl⟩
    · constructor
      · rintro ⟨e, he⟩; cases he
      · rintro (h | h)
        · exact absurd h h1
        · exact absurd h h2
  · intro src tmp dst radius
    simp only [box_blur_rgb]
    split_ifs with h1 h2
    · constructor
      · intro _; tauto
      · intro _; exact ⟨_, rfl⟩
    · constructor
      · intro _; tauto
      · intro _; exact ⟨_, rfl⟩
    · constructor
      · rintro ⟨e, he⟩; cases he
      · intro h; tauto
  · intro fg sink mask lut
    simp only [blend_linear_in_place]
    split_ifs with h1 h2
    · constructor
      · intro _; tauto
      · intro _; exact ⟨_, rfl⟩
    · constructor
      · intro _; tauto
      · intro _; exact ⟨_, rfl⟩
    · constructor
      · rintro ⟨e, he⟩; cases he
      · intro h; tauto

/-! ### `Rng32` (`src/fx.rs` lines 11-35) -/

/-- Model of `Rng32`: a 32-bit xorshift state. -/
structure Rng32 where
  state : ℕ
deriving DecidableEq

/-- Model of `Rng32::from_seed`: `seed | 1` (the seed is a `u32`). -/
def Rng32.from_seed (seed : ℕ) : Rng32 := ⟨(seed % 2^32) ||| 1⟩

/-- Model of `Rng32::next_u32` (xorshift32 with `u32` wrap-around on the
left shifts). -/
def Rng32.next_u32 (rng : Rng32) : ℕ × Rng32 :=
  let x := rng.state
  let x := x ^^^ ((x <<< 13) % 2^32)
  let x := x ^^^ (x >>> 17)
  let x := x ^^^ ((x <<< 5) % 2^32)
  (x, ⟨x⟩)

/-- Model of `Rng32::next_f32`: `(next_u32() >> 8) as f32 / 2^24` (exact,
since 24-bit integers and the quotient are exactly representable). -/
def Rng32.next_f32 (rng : Rng32) : ℚ × Rng32 :=
  let p := rng.next_u32
  (((p.1 >>> 8 : ℕ) : ℚ) / ((2^24 : ℕ) : ℚ), p.2)

/-- Model of `Rng32::range`. -/
def Rng32.range (rng : Rng32) (lo hi : ℚ) : ℚ × Rng32 :=
  let p := rng.next_f32
  (lo + (hi - lo) * p.1, p.2)

/-- Iterated `next_u32` state evolution. -/
def Rng32.iterate (rng : Rng32) : ℕ → Rng32
  | 0 => rng
  | n + 1 => ((Rng32.iterate rng n).next_u32).2

theorem nat_xor_eq_zero {a b : ℕ} (h : a ^^^ b = 0) : a = b := by
  have h2 : a ^^^ (a ^^^ b) = a ^^^ 0 := by rw [h]
  rw [← Nat.xor_assoc, Nat.xor_self, Nat.zero_xor, Nat.xor_zero] at h2
  exact h2.symm

theorem shl_xor_ne_zero {x : ℕ} (k : ℕ) (hk : 0 < k) (hx : x ≠ 0) :
    x ^^^ ((x <<< k) % 2^32) ≠ 0 := by
  intro h
  have heq : x = (x <<< k) % 2^32 := nat_xor_eq_zero h
  have hex : ∃ i, x.testBit i = true := Nat.ne_zero_implies_bit_true hx
  obtain ⟨i0, hbit, hmin⟩ :
      ∃ i, x.testBit i = true ∧ ∀ j, j < i → ¬ (x.testBit j = true) :=
    ⟨Nat.find hex, Nat.find_spec hex, fun j hj => Nat.find_min hex hj⟩
  rw [heq, Nat.testBit_mod_two_pow, Nat.testBit_shiftLeft] at hbit
  simp only [Bool.and_eq_true, decide_eq_true_eq] at hbit
  obtain ⟨h32, hk', hbit'⟩ := hbit
  exact hmin (i0 - k) (by omega) hbit'

theorem shr_xor_ne_zero {x : ℕ} (hx : x ≠ 0) : x ^^^ (x >>> 17) ≠ 0 := by
  intro h
  have heq : x = x >>> 17 := nat_xor_eq_zero h
  rw [Nat.shiftRight_eq_div_pow] at heq
  have := Nat.div_lt_self (Nat.pos_of_ne_zero hx) (by norm_num : 1 < 2^17)
  omega

theorem next_u32_state_ne_zero (rng : Rng32) (hx : rng.state ≠ 0) :
    (rng.next_u32).2.state ≠ 0 := by
  have h1 : rng.state ^^^ ((rng.state <<< 13) % 2^32) ≠ 0 :=
    shl_xor_ne_zero 13 (by norm_num) hx
  have h2 : (rng.state ^^^ ((rng.state <<< 13) % 2^32)) ^^^
      ((rng.state ^^^ ((rng.state <<< 13) % 2^32)) >>> 17) ≠ 0 :=
    shr_xor_ne_zero h1
  have h3 := shl_xor_ne_zero 5 (by norm_num) h2
  exact h3

/-- Claim C10: the FX rng's state is never zero: `from_seed` forces bit 0
on, and each xorshift step maps a nonzero state to a nonzero state, so the
state after any number of `next_u32` calls from any seed is nonzero. -/
theorem rng_state_never_zero :
    (∀ seed : ℕ, (Rng32.from_seed seed).state ≠ 0) ∧
    (∀ rng : Rng32, rng.state ≠ 0 → (rng.next_u32).2.state ≠ 0) ∧
    (∀ seed n, ((Rng32.from_seed seed).iterate n).state ≠ 0) := by
  have hseed : ∀ seed : ℕ, (Rng32.from_seed seed).state ≠ 0 := by
    intro seed h
    have hb : ((seed % 2^32) ||| 1).testBit 0 = true := by
      rw [Nat.testBit_or]
      simp [Nat.testBit_one_zero]
    rw [show (Rng32.from_seed seed).state = (seed % 2^32) ||| 1 from rfl] at h
    rw [h] at hb
    simp [Nat.zero_testBit] at hb
  refine ⟨hseed, fun rng h => next_u32_state_ne_zero rng h, ?_⟩
  intro seed n
  induction n with
  | zero => exact hseed seed
  | succ m ih => exact next_u32_state_ne_zero _ ih

/-- Closed witness for claim C10 at the engine's actual seed. -/
theorem rng_state_never_zero_witness :
    ((Rng32.from_seed 0xBADA55).next_u32).2.state ≠ 0 :=
  rng_state_never_zero.2.1 (Rng32.from_seed 0xBADA55) (by decide)

/-! ### The FX engine (`src/fx.rs`)

The `f32` physics is modelled over `ℚ` with the transcendental library
calls (`exp`, `cos`, `sin`, `sqrt`) abstracted as a parameter record, so
every statement below holds for every implementation of those functions.
`as i32` casts are modelled as saturating truncation toward zero, as in
Rust. -/

/-- Abstract float math functions used by `fx.rs`. -/
structure MathF where
  expf : ℚ → ℚ
  cosf : ℚ → ℚ
  sinf : ℚ → ℚ
  sqrtf : ℚ → ℚ

/-- The `f32` value of `std::f32::consts::TAU` (exactly representable). -/
def tauF32 : ℚ := 13176795 / 2097152

/-- Truncation toward zero, saturating at the `i32` bounds (`as i32`). -/
def ratToI32 (q : ℚ) : ℤ :=
  intClamp (if 0 ≤ q then ratFloor q else -(ratFloor (-q))) (-(2^31)) (2^31 - 1)

/-- Rational ceiling (`f32::ceil`). -/
def ratCeil (q : ℚ) : ℤ := -(ratFloor (-q))

/-- Model of `Particle`. -/
structure Particle where
  x : ℚ
  y : ℚ
  vx : ℚ
  vy : ℚ
  life : ℚ
  max_life : ℚ
  energy : ℚ
deriving DecidableEq

/-- Model of `Bolt`. -/
structure Bolt where
  pts : List (ℚ × ℚ)
  ttl : ℚ
deriving DecidableEq

/-- Model of `DiscKernel`. -/
structure DiscKernel where
  radius : ℤ
  dim : ℤ
  weights : List ℕ
deriving DecidableEq

/-- Model of `DiscKernel::build`: Gaussian weights with `sigma = radius/2`,
normalised so the maximum is 255 and quantised to bytes. -/
def DiscKernel.build (expf : ℚ → ℚ) (radius : ℤ) : DiscKernel :=
  let dim := 2 * radius + 1
  let sigma : ℚ := (radius : ℚ) * 0.5
  let s2 := 2 * sigma * sigma
  let temp := (rangeClosed (-radius) radius).flatMap (fun (y : ℤ) =>
    (rangeClosed (-radius) radius).map (fun (x : ℤ) =>
      expf (-((x : ℚ) * (x : ℚ) + (y : ℚ) * (y : ℚ)) / s2)))
  let maxw := temp.foldl (fun m w => if w > m then w else m) 0
  let scale := if maxw > 0 then 255 / maxw else 0
  let weights := temp.map (fun w =>
    (intClamp (rustRound (w * scale)) 0 255).toNat)
  ⟨radius, dim, weights⟩

/-- Model of `add_rgb_saturating`: per-channel saturating add at 255. -/
def add_rgb_saturating (fb : FrameBuffer) (x y : ℤ) (r g b : ℕ) :
    FrameBuffer :=
  if x < 0 ∨ y < 0 then fb
  else if x.toNat ≥ fb.width ∨ y.toNat ≥ fb.height then fb
  else
    let idx := y.toNat * fb.width + x.toNat
    let old := fb.pixels.getD idx 0
    let nr := min (chanR old + r) 255
    let ng := min (chanG old + g) 255
    let nb := min (chanB old + b) 255
    { fb with pixels := fb.pixels.set idx (packRGB nr ng nb) }

/-- Model of `DiscKernel::stamp_additive`: integer-scaled disc stamped
additively at `(cx, cy)`; out-of-screen cells are skipped. -/
def DiscKernel.stamp_additive (k : DiscKernel) (fb : FrameBuffer)
    (cx cy : ℤ) (base_r base_g base_b : ℕ) (strength : ℚ) : FrameBuffer :=
  let s8 : ℕ := (rustRound (rustClamp strength 0 1 * 255)).toNat
  (rangeClosed 0 (k.dim - 1)).foldl (fun fb1 ky =>
    (rangeClosed 0 (k.dim - 1)).foldl (fun fb2 kx =>
      let sx := cx + kx - k.radius
      let sy := cy + ky - k.radius
      if sx < 0 ∨ sy < 0 ∨ sx ≥ (fb.width : ℤ) ∨ sy ≥ (fb.height : ℤ) then fb2
      else
        let w8 := k.weights.getD (ky * k.dim + kx).toNat 0
        if w8 = 0 then fb2
        else
          let wscaled := (w8 * s8 + 127) / 255
          let rr := (base_r * wscaled + 127) / 255
          let gg := (base_g * wscaled + 127) / 255
          let bb := (base_b * wscaled + 127) / 255
          add_rgb_saturating fb2 sx sy rr gg bb) fb1) fb

/-- Model of `Fx`. -/
structure Fx where
  rng : Rng32
  particles : List Particle
  max_particles : ℕ
  bolt : Option Bolt
  kernels : List DiscKernel

/-- Model of `Fx::new`: fixed seed `0xBADA55`, empty pool, no bolt, glow
kernels for radii 2 through 8. -/
def Fx.new (mf : MathF) (max_particles : ℕ) : Fx :=
  { rng := Rng32.from_seed 0xBADA55
    particles := []
    max_particles := max_particles
    bolt := none
    kernels := [DiscKernel.build mf.expf 2, DiscKernel.build mf.expf 3,
      DiscKernel.build mf.expf 4, DiscKernel.build mf.expf 5,
      DiscKernel.build mf.expf 6, DiscKernel.build mf.expf 7,
      DiscKernel.build mf.expf 8] }

/-- Model of `Fx::spawn_sparkles` (structural recursion on the requested
count; the loop breaks as soon as the pool is full). -/
def Fx.spawn_sparkles (mf : MathF) (fx : Fx) (x y : ℚ) : ℕ → Fx
  | 0 => fx
  | n + 1 =>
    if fx.particles.length ≥ fx.max_particles then fx
    else
      let p1 := fx.rng.range 30 90
      let p2 := p1.2.range 0 tauF32
      let vx := p1.1 * mf.cosf p2.1
      let p3 := p2.2.range 0 20
      let vy := p1.1 * mf.sinf p2.1 - p3.1
      let p4 := p3.2.range 0.35 0.75
      let p5 := p4.2.range 0.6 1.0
      Fx.spawn_sparkles mf
        { fx with
            rng := p5.2
            particles := fx.particles ++ [⟨x, y, vx, vy, p4.1, p4.1, p5.1⟩] }
        x y n

/-- One jitter step of the bolt polyline construction (the `for _ in
0..segs` loop body of `maybe_spawn_bolt`; `step = len / segs` is the same
value on every iteration, so it is passed in once). -/
def boltSteps (mf : MathF) (theta step : ℚ) :
    ℕ → ℚ × ℚ × Rng32 × List (ℚ × ℚ) → ℚ × ℚ × Rng32 × List (ℚ × ℚ)
  | 0, st => st
  | n + 1, (px, py, rng, pts) =>
    let j := rng.range (-0.6) 0.6
    let dir := theta + j.1
    let px1 := px + step * mf.cosf dir
    let py1 := py + step * mf.sinf dir
    let jx := j.2.range (-2) 2
    let px2 := px1 + jx.1
    let jy := jx.2.range (-2) 2
    let py2 := py1 + jy.1
    boltSteps mf theta step n (px2, py2, jy.2, pts ++ [(px2, py2)])

/-- Model of `Fx::maybe_spawn_bolt`: with the rng's next draw ≤ 0.03,
build a 10-segment jagged polyline from `(x, y)` with ttl 0.10. -/
def Fx.maybe_spawn_bolt (mf : MathF) (fx : Fx) (x y : ℚ) : Fx :=
  let f := fx.rng.next_f32
  if f.1 > 0.03 then { fx with rng := f.2 }
  else
    let len := f.2.range 40 90
    let theta := len.2.range 0 tauF32
    let res := boltSteps mf theta.1 (len.1 / 10) 10 (x, y, theta.2, [(x, y)])
    { fx with rng := res.2.2.1, bolt := some ⟨res.2.2.2, 0.10⟩ }

/-- One Euler step of a particle (`update_and_render` lines 269-278). -/
def particleStep (p : Particle) (dt : ℚ) : Particle :=
  { x := p.x + p.vx * dt
    y := p.y + p.vy * dt
    vx := p.vx * 0.98
    vy := p.vy * 0.98 + 10 * dt
    life := p.life - dt
    max_life := p.max_life
    energy := p.energy }

/-- Default particle used only to make list indexing total. -/
def pDefault : Particle := ⟨0, 0, 0, 0, 0, 0, 0⟩

/-- Default kernel used only to make list indexing total. -/
def kDefault : DiscKernel := ⟨0, 1, [0]⟩

/-- Render one live particle (`update_and_render` lines 280-299). -/
def renderParticle (kernels : List DiscKernel) (fb : FrameBuffer)
    (p : Particle) : FrameBuffer :=
  let life01 := rustClamp (p.life / p.max_life) 0 1
  let desired := rustRound (6 * life01 + 2)
  let idx := (intClamp (desired - 2) 0 6).toNat
  let kernel := kernels.getD idx kDefault
  let strength := rustClamp (0.9 * p.energy * life01) 0 1
  kernel.stamp_additive fb (ratToI32 p.x) (ratToI32 p.y) 255 200 80 strength

/-- Model of `Vec::swap_remove`: replace slot `i` with the last element,
then drop the last slot. -/
def swapRemove {α : Type} (l : List α) (i : ℕ) (d : α) : List α :=
  (l.set i ((l.getLast?).getD d)).dropLast

/-- The `while i < particles.len()` loop of `update_and_render`, with fuel
(the loop runs exactly `particles.length` iterations: each iteration
either keeps one particle, advancing `i`, or swap-removes one). -/
def updateLoop (kernels : List DiscKernel) (dt : ℚ) :
    ℕ → List Particle → ℕ → FrameBuffer → List Particle × FrameBuffer
  | 0, ps, _, fb => (ps, fb)
  | fuel + 1, ps, i, fb =>
    if i < ps.length then
      let p1 := particleStep (ps.getD i pDefault) dt
      if p1.life > 0 then
        updateLoop kernels dt fuel (ps.set i p1) (i + 1)
          (renderParticle kernels fb p1)
      else
        updateLoop kernels dt fuel (swapRemove ps i pDefault) i fb
    else (ps, fb)

/-- Render one bolt segment (`update_and_render` lines 317-333): stamp
the radius-3 disc every ~2 px along the segment. -/
def renderBoltSeg (kernel : DiscKernel) (mf : MathF) (s : ℚ)
    (fb : FrameBuffer) (p0 p1 : ℚ × ℚ) : FrameBuffer :=
  let dx := p1.1 - p0.1
  let dy := p1.2 - p0.2
  let d0 := mf.sqrtf (dx * dx + dy * dy)
  let dist := if d0 > 1 then d0 else 1
  let steps := intClamp (ratCeil (dist / 2)) (-(2^31)) (2^31 - 1)
  (rangeClosed 0 steps).foldl (fun fb1 tstep =>
    let t := (tstep : ℚ) / (steps : ℚ)
    kernel.stamp_additive fb1 (ratToI32 (p0.1 + dx * t))
      (ratToI32 (p0.2 + dy * t)) 210 230 255 (1.2 * s)) fb

/-- Model of `Fx::update_and_render`: advance and render the particle
pool, then fade/render/expire the bolt. -/
def Fx.update_and_render (mf : MathF) (fx : Fx) (fb : FrameBuffer) (dt : ℚ) :
    Fx × FrameBuffer :=
  let pr := updateLoop fx.kernels dt fx.particles.length fx.particles 0 fb
  match fx.bolt with
  | none => ({ fx with particles := pr.1 }, pr.2)
  | some b =>
    let ttl1 := b.ttl - dt
    let s := rustClamp (ttl1 / 0.10) 0 1
    let kernel := fx.kernels.getD 1 kDefault
    let fb2 := (List.range (b.pts.length - 1)).foldl (fun fbx seg =>
      renderBoltSeg kernel mf s fbx (b.pts.getD seg (0, 0))
        (b.pts.getD (seg + 1) (0, 0))) pr.2
    let bolt1 := if ttl1 ≤ 0 then none else some ⟨b.pts, ttl1⟩
    ({ fx with particles := pr.1, bolt := bolt1 }, fb2)

/-- One call into the FX engine's public API. -/
inductive FxCmd where
  | spawn (x y : ℚ) (count : ℕ)
  | boltAt (x y : ℚ)
  | update (fb : FrameBuffer) (dt : ℚ)

/-- Interpret one command. -/
def Fx.step (mf : MathF) (fx : Fx) : FxCmd → Fx × Option FrameBuffer
  | .spawn x y count => (Fx.spawn_sparkles mf fx x y count, none)
  | .boltAt x y => (Fx.maybe_spawn_bolt mf fx x y, none)
  | .update fb dt =>
    let r := Fx.update_and_render mf fx fb dt
    (r.1, some r.2)

/-- Run the FX engine over a whole call sequence, collecting every
rendered framebuffer. -/
def runFx (mf : MathF) (fx : Fx) : List FxCmd → Fx × List FrameBuffer
  | [] => (fx, [])
  | cmd :: rest =>
    let r := Fx.step mf fx cmd
    let rr := runFx mf r.1 rest
    (rr.1, r.2.toList ++ rr.2)

theorem spawn_sparkles_bound (mf : MathF) (x y : ℚ) :
    ∀ (count : ℕ) (fx : Fx),
      fx.particles.length ≤ fx.max_particles →
      (Fx.spawn_sparkles mf fx x y count).particles.length ≤
        (Fx.spawn_sparkles mf fx x y count).max_particles ∧
      (Fx.spawn_sparkles mf fx x y count).max_particles =
        fx.max_particles := by
  intro count
  induction count with
  | zero => intro fx h; exact ⟨h, rfl⟩
  | succ n ih =>
    intro fx h
    simp only [Fx.spawn_sparkles]
    split_ifs with hfull
    · exact ⟨h, rfl⟩
    · push_neg at hfull
      refine ⟨(ih _ ?_).1, ((ih _ ?_).2).trans rfl⟩ <;>
        · simp only [List.length_append, List.length_cons, List.length_nil]
          omega

theorem maybe_spawn_bolt_particles (mf : MathF) (fx : Fx) (x y : ℚ) :
    (Fx.maybe_spawn_bolt mf fx x y).particles = fx.particles ∧
    (Fx.maybe_spawn_bolt mf fx x y).max_particles = fx.max_particles := by
  simp only [Fx.maybe_spawn_bolt]
  split_ifs <;> exact ⟨rfl, rfl⟩

theorem swapRemove_length_le {α : Type} (l : List α) (i : ℕ) (d : α) :
    (swapRemove l i d).length ≤ l.length := by
  unfold swapRemove
  rw [List.length_dropLast, List.length_set]
  omega

theorem updateLoop_length_le (kernels : List DiscKernel) (dt : ℚ) :
    ∀ (fuel : ℕ) (ps : List Particle) (i : ℕ) (fb : FrameBuffer),
      (updateLoop kernels dt fuel ps i fb).1.length ≤ ps.length := by
  intro fuel
  induction fuel with
  | zero => intro ps i fb; exact Nat.le_refl _
  | succ n ih =>
    intro ps i fb
    simp only [updateLoop]
    split_ifs with h1 h2
    · have := ih (ps.set i (particleStep (ps.getD i pDefault) dt)) (i + 1)
        (renderParticle kernels fb (particleStep (ps.getD i pDefault) dt))
      simpa [List.length_set] using this
    · have h3 := ih (swapRemove ps i pDefault) i fb
      have h4 := swapRemove_length_le ps i pDefault
      omega
    · exact Nat.le_refl _

theorem update_and_render_bound (mf : MathF) (fx : Fx) (fb : FrameBuffer)
    (dt : ℚ) :
    (Fx.update_and_render mf fx fb dt).1.particles.length ≤
      fx.particles.length ∧
    (Fx.update_and_render mf fx fb dt).1.max_particles =
      fx.max_particles := by
  unfold Fx.update_and_render
  cases hb : fx.bolt with
  | none => exact ⟨updateLoop_length_le _ _ _ _ _ _, rfl⟩
  | some b => exact ⟨updateLoop_length_le _ _ _ _ _ _, rfl⟩

theorem runFx_bound (mf : MathF) :
    ∀ (cmds : List FxCmd) (fx : Fx),
      fx.particles.length ≤ fx.max_particles →
      (runFx mf fx cmds).1.particles.length ≤
        (runFx mf fx cmds).1.max_particles ∧
      (runFx mf fx cmds).1.max_particles = fx.max_particles := by
  intro cmds
  induction cmds with
  | nil => intro fx h; exact ⟨h, rfl⟩
  | cons cmd rest ih =>
    intro fx h
    simp only [runFx]
    have hstep : (Fx.step mf fx cmd).1.particles.length ≤
        (Fx.step mf fx cmd).1.max_particles ∧
        (Fx.step mf fx cmd).1.max_particles = fx.max_particles := by
      cases cmd with
      | spawn x y count => exact spawn_sparkles_bound mf x y count fx h
      | boltAt x y =>
        have hb := maybe_spawn_bolt_particles mf fx x y
        refine ⟨?_, hb.2⟩
        show (Fx.maybe_spawn_bolt mf fx x y).particles.length ≤
          (Fx.maybe_spawn_bolt mf fx x y).max_particles
        rw [hb.1, hb.2]
        exact h
      | update fb dt =>
        have hu := update_and_render_bound mf fx fb dt
        refine ⟨?_, hu.2⟩
        show (Fx.update_and_render mf fx fb dt).1.particles.length ≤
          (Fx.update_and_render mf fx fb dt).1.max_particles
        rw [hu.2]
        exact le_trans hu.1 h
    have hr := ih (Fx.step mf fx cmd).1 hstep.1
    exact ⟨hr.1, hr.2.trans hstep.2⟩

/-- Claim C9: the particle pool never exceeds its configured capacity:
for every `Fx` created with `max_particles`, after any sequence of
`spawn_sparkles`, `maybe_spawn_bolt` and `update_and_render` calls the
number of live particles is at most `max_particles`. -/
theorem fx_particle_pool_bounded (mf : MathF) (mp : ℕ) (cmds : List FxCmd) :
    ((runFx mf (Fx.new mf mp) cmds).1).particles.length ≤ mp := by
  have h := runFx_bound mf cmds (Fx.new mf mp) (by simp [Fx.new])
  have hm : (runFx mf (Fx.new mf mp) cmds).1.max_particles = mp :=
    h.2.trans rfl
  exact le_trans h.1 (le_of_eq hm)

/-- Claim C8: the FX engine's rng is seeded once at construction from the
fixed constant `0xBADA55` (no other input reaches it), and the engine is
a mathematical function of its call sequence: two runs given equal
sequences of `spawn_sparkles` / `maybe_spawn_bolt` / `update_and_render`
calls produce identical particle pools, bolts and framebuffer output. -/
theorem fx_engine_deterministic (mf : MathF) (mp : ℕ)
    (cmds1 cmds2 : List FxCmd) (h : cmds1 = cmds2) :
    (Fx.new mf mp).rng = Rng32.from_seed 0xBADA55 ∧
    runFx mf (Fx.new mf mp) cmds1 = runFx mf (Fx.new mf mp) cmds2 := by
  subst h
  exact ⟨rfl, rfl⟩

/-- A concrete instantiation of the abstract math functions. -/
def mathF1 : MathF := ⟨fun _ => 1, fun _ => 1, fun _ => 1, fun _ => 1⟩

/-- Closed witness for claim C8 on a concrete two-command sequence. -/
theorem fx_engine_deterministic_witness :
    (Fx.new mathF1 4).rng = Rng32.from_seed 0xBADA55 ∧
    runFx mathF1 (Fx.new mathF1 4) [FxCmd.spawn 5 5 2, FxCmd.boltAt 5 5] =
      runFx mathF1 (Fx.new mathF1 4) [FxCmd.spawn 5 5 2, FxCmd.boltAt 5 5] :=
  fx_engine_deterministic mathF1 4 [FxCmd.spawn 5 5 2, FxCmd.boltAt 5 5]
    [FxCmd.spawn 5 5 2, FxCmd.boltAt 5 5] rfl
